import Mathlib

/-!
Verification development for the Habit word-tracking repository.

Part 1 embeds the word tokenizer and differ of src/google_docs.py
(`compute_diff`, built on Python difflib.SequenceMatcher with isjunk=None
and the default autojunk heuristic).

Part 2 embeds the sync pipeline of src/google_docs.py
(`process_folder`, `list_drive_files`, `main`) over the data model of
src/models.py, with provider responses, dates and timestamps as explicit
inputs.
-/

namespace Habit

/-! ### Tokenizer

Python `text.split()` splits on runs of whitespace and drops empty pieces.
`compute_diff` guards `prev_text.split() if prev_text else []`; splitting an
empty string also yields `[]`, so the guard is the identity and both word
lists are obtained by `tokenize`. -/

def splitWordsAux : List Char → List Char → List String
  | [], cur => if cur = [] then [] else [String.mk cur.reverse]
  | c :: cs, cur =>
    if c.isWhitespace then
      (if cur = [] then [] else [String.mk cur.reverse]) ++ splitWordsAux cs []
    else splitWordsAux cs (c :: cur)

def tokenize (s : String) : List String :=
  splitWordsAux s.data []

/-! ### SequenceMatcher: popularity (autojunk)

difflib `__chain_b` with isjunk=None: when `len(b) >= 200`, elements of `b`
occurring more than `len(b) // 100 + 1` times are "popular" and are removed
from the index `b2j`, so they cannot seed or continue a matching run during
the scan of `find_longest_match` (they can still be crossed by the
extension loops, which only test the junk set, empty here). -/

def countOcc [DecidableEq α] (b : List α) (x : α) : Nat :=
  b.countP (fun y => decide (y = x))

def isPopular [DecidableEq α] (b : List α) (x : α) : Bool :=
  decide (200 ≤ b.length) && decide (b.length / 100 + 1 < countOcc b x)

/-! ### find_longest_match

The scan of difflib `find_longest_match` maintains, for each `j`, the length
of the matching run ending at `(i, j)`; a run continues only through window
positions `alo ≤ i < ahi`, `blo ≤ j < bhi` whose `b` element is in `b2j`
(equal elements, `b[j]` not popular).  `runAt` is that run length. -/

def matchOk [DecidableEq α] (a b : List α) (pop : α → Bool)
    (alo ahi blo bhi i j : Nat) : Bool :=
  decide (alo ≤ i) && decide (i < ahi) && decide (blo ≤ j) && decide (j < bhi) &&
    (match a[i]?, b[j]? with
     | some x, some y => decide (x = y) && !pop y
     | _, _ => false)

def runAt [DecidableEq α] (a b : List α) (pop : α → Bool)
    (alo ahi blo bhi : Nat) : Nat → Nat → Nat
  | 0, j => if matchOk a b pop alo ahi blo bhi 0 j then 1 else 0
  | i + 1, 0 => if matchOk a b pop alo ahi blo bhi (i + 1) 0 then 1 else 0
  | i + 1, j + 1 =>
    if matchOk a b pop alo ahi blo bhi (i + 1) (j + 1) then
      runAt a b pop alo ahi blo bhi i j + 1
    else 0

/-- One update step of the scan: strictly better runs replace the best,
recorded by their start `(i - k + 1, j - k + 1)` and length. -/
def bestStep [DecidableEq α] (a b : List α) (pop : α → Bool)
    (alo ahi blo bhi i : Nat) (best : Nat × Nat × Nat) (j : Nat) :
    Nat × Nat × Nat :=
  let k := runAt a b pop alo ahi blo bhi i j
  if best.2.2 < k then (i + 1 - k, j + 1 - k, k) else best

def scanRow [DecidableEq α] (a b : List α) (pop : α → Bool)
    (alo ahi blo bhi i : Nat) (best : Nat × Nat × Nat) : Nat × Nat × Nat :=
  (List.range' blo (bhi - blo)).foldl (bestStep a b pop alo ahi blo bhi i) best

def scanBest [DecidableEq α] (a b : List α) (pop : α → Bool)
    (alo ahi blo bhi : Nat) : Nat × Nat × Nat :=
  (List.range' alo (ahi - alo)).foldl
    (fun best i => scanRow a b pop alo ahi blo bhi i best) (alo, blo, 0)

def elemEq [DecidableEq α] (a b : List α) (i j : Nat) : Bool :=
  match a[i]?, b[j]? with
  | some x, some y => decide (x = y)
  | _, _ => false

/-- Backward extension loop of find_longest_match
(`while besti > alo and bestj > blo and a[besti-1] == b[bestj-1]`; the junk
test `not isbjunk(...)` is vacuous since the junk set is empty). -/
def extendBack [DecidableEq α] (a b : List α) (alo blo : Nat) :
    Nat → Nat → Nat → Nat × Nat × Nat
  | 0, j, k => (0, j, k)
  | i + 1, 0, k => (i + 1, 0, k)
  | i + 1, j + 1, k =>
    if decide (alo ≤ i) && decide (blo ≤ j) && elemEq a b i j then
      extendBack a b alo blo i j (k + 1)
    else (i + 1, j + 1, k)

/-- Forward extension loop
(`while besti+bestsize < ahi and bestj+bestsize < bhi and a[..] == b[..]`),
run on fuel `ahi - (i + k)`, an exact bound on its iteration count. -/
def extendForwardAux [DecidableEq α] (a b : List α) (ahi bhi i j : Nat) :
    Nat → Nat → Nat
  | 0, k => k
  | fuel + 1, k =>
    if decide (i + k < ahi) && decide (j + k < bhi) && elemEq a b (i + k) (j + k) then
      extendForwardAux a b ahi bhi i j fuel (k + 1)
    else k

def findLongestMatch [DecidableEq α] (a b : List α) (pop : α → Bool)
    (alo ahi blo bhi : Nat) : Nat × Nat × Nat :=
  let s := scanBest a b pop alo ahi blo bhi
  let t := extendBack a b alo blo s.1 s.2.1 s.2.2
  (t.1, t.2.1, extendForwardAux a b ahi bhi t.1 t.2.1 (ahi - (t.1 + t.2.2)) t.2.2)

/-! ### get_matching_blocks

difflib processes a LIFO queue of rectangles and sorts the collected blocks;
since the blocks of the two sub-rectangles of a match lie strictly left and
right of it, that equals the in-order recursion below.  The recursion depth
is bounded by the rectangle perimeter, used as fuel: every recursive call
strictly shrinks `(ahi - alo) + (bhi - blo)`, so the fuel
`a.length + b.length + 1` supplied by `matchingBlocks` never runs out. -/

def matchingBlocksAux [DecidableEq α] (a b : List α) (pop : α → Bool) :
    Nat → Nat → Nat → Nat → Nat → List (Nat × Nat × Nat)
  | 0, _, _, _, _ => []
  | fuel + 1, alo, ahi, blo, bhi =>
    match findLongestMatch a b pop alo ahi blo bhi with
    | (i, j, k) =>
      if 0 < k then
        (if alo < i ∧ blo < j then matchingBlocksAux a b pop fuel alo i blo j
         else []) ++
        (i, j, k) ::
        (if i + k < ahi ∧ j + k < bhi then
          matchingBlocksAux a b pop fuel (i + k) ahi (j + k) bhi
        else [])
      else []

def matchingBlocks [DecidableEq α] (a b : List α) (pop : α → Bool) :
    List (Nat × Nat × Nat) :=
  matchingBlocksAux a b pop (a.length + b.length + 1) 0 a.length 0 b.length

/-- The adjacent-block merge at the end of get_matching_blocks, starting
from the accumulator `(0, 0, 0)`. -/
def mergeAdjacent : Nat × Nat × Nat → List (Nat × Nat × Nat) → List (Nat × Nat × Nat)
  | (i1, j1, k1), [] => if k1 ≠ 0 then [(i1, j1, k1)] else []
  | (i1, j1, k1), (i2, j2, k2) :: rest =>
    if i1 + k1 = i2 ∧ j1 + k1 = j2 then mergeAdjacent (i1, j1, k1 + k2) rest
    else if k1 ≠ 0 then (i1, j1, k1) :: mergeAdjacent (i2, j2, k2) rest
    else mergeAdjacent (i2, j2, k2) rest

def getMatchingBlocks [DecidableEq α] (a b : List α) (pop : α → Bool) :
    List (Nat × Nat × Nat) :=
  mergeAdjacent (0, 0, 0) (matchingBlocks a b pop) ++ [(a.length, b.length, 0)]

/-! ### get_opcodes and compute_diff -/

inductive OpTag where
  | replace
  | delete
  | insert
  | equal
deriving DecidableEq, Repr

def opcodesAux : Nat → Nat → List (Nat × Nat × Nat) → List (OpTag × Nat × Nat × Nat × Nat)
  | _, _, [] => []
  | i, j, (ai, bj, size) :: rest =>
    (if i < ai ∧ j < bj then [(OpTag.replace, i, ai, j, bj)]
     else if i < ai then [(OpTag.delete, i, ai, j, bj)]
     else if j < bj then [(OpTag.insert, i, ai, j, bj)]
     else []) ++
    (if size ≠ 0 then [(OpTag.equal, ai, ai + size, bj, bj + size)] else []) ++
    opcodesAux (ai + size) (bj + size) rest

def getOpcodes [DecidableEq α] (a b : List α) (pop : α → Bool) :
    List (OpTag × Nat × Nat × Nat × Nat) :=
  opcodesAux 0 0 (getMatchingBlocks a b pop)

/-- The opcode fold of `compute_diff`: inserts add `j2 - j1`, deletes add
`i2 - i1`, replaces add both, equals add nothing. -/
def diffStep : Nat × Nat → OpTag × Nat × Nat × Nat × Nat → Nat × Nat
  | acc, (OpTag.insert, _, _, j1, j2) => (acc.1 + (j2 - j1), acc.2)
  | acc, (OpTag.delete, i1, i2, _, _) => (acc.1, acc.2 + (i2 - i1))
  | acc, (OpTag.replace, i1, i2, j1, j2) => (acc.1 + (j2 - j1), acc.2 + (i2 - i1))
  | acc, (OpTag.equal, _, _, _, _) => acc

def diffCounts (ops : List (OpTag × Nat × Nat × Nat × Nat)) : Nat × Nat :=
  ops.foldl diffStep (0, 0)

/-- `compute_diff` on the two word lists: empty previous short-circuits to
`(len(curr_words), 0)`; otherwise SequenceMatcher(None, prev, curr) is run,
so the popularity heuristic is keyed on the second sequence. -/
def computeDiffTokens [DecidableEq α] (prevWords currWords : List α) : Nat × Nat :=
  if prevWords = [] then (currWords.length, 0)
  else diffCounts (getOpcodes prevWords currWords (isPopular currWords))

def computeDiff (prevText currText : String) : Nat × Nat :=
  computeDiffTokens (tokenize prevText) (tokenize currText)

/-! ### The spec's minimality reference

Modelled from the spec: the spec's differ contract measures
"the minimal total number of token insertions and deletions needed to turn
`previous` into `current` under a longest-common-subsequence alignment".
Under an LCS alignment exactly the tokens outside a longest common
subsequence are edited, so that minimum is
`|previous| + |current| - 2 * lcs(previous, current)`.  The classic LCS
recursion is run on fuel `|xs| + |ys|`, an exact bound on its depth. -/

def lcsLenAux [DecidableEq α] : Nat → List α → List α → Nat
  | _, [], _ => 0
  | _, _ :: _, [] => 0
  | 0, _ :: _, _ :: _ => 0
  | fuel + 1, x :: xs, y :: ys =>
    if x = y then lcsLenAux fuel xs ys + 1
    else max (lcsLenAux fuel (x :: xs) ys) (lcsLenAux fuel xs (y :: ys))

def lcsLen [DecidableEq α] (xs ys : List α) : Nat :=
  lcsLenAux (xs.length + ys.length) xs ys

def minEditsTokens [DecidableEq α] (prevWords currWords : List α) : Nat :=
  prevWords.length + currWords.length - 2 * lcsLen prevWords currWords

/-! ## Structural facts about the matcher -/

theorem foldl_inv {σ β : Type _} (P : σ → Prop) (f : σ → β → σ)
    (hf : ∀ s x, P s → P (f s x)) :
    ∀ (l : List β) (s : σ), P s → P (l.foldl f s)
  | [], _, h => h
  | x :: l, s, h => foldl_inv P f hf l (f s x) (hf s x h)

theorem matchOk_iff [DecidableEq α] (a b : List α) (pop : α → Bool)
    (alo ahi blo bhi i j : Nat) :
    matchOk a b pop alo ahi blo bhi i j = true ↔
      alo ≤ i ∧ i < ahi ∧ blo ≤ j ∧ j < bhi ∧
        ∃ x, a[i]? = some x ∧ b[j]? = some x ∧ pop x = false := by
  unfold matchOk
  cases ha : a[i]? with
  | none => simp [ha]
  | some x =>
    cases hb : b[j]? with
    | none => simp [ha, hb]
    | some y =>
      simp only [ha, hb, Bool.and_eq_true, decide_eq_true_eq, Bool.not_eq_true']
      constructor
      · rintro ⟨⟨⟨⟨h1, h2⟩, h3⟩, h4⟩, h5, h6⟩
        subst h5
        exact ⟨h1, h2, h3, h4, x, rfl, rfl, h6⟩
      · rintro ⟨h1, h2, h3, h4, z, hz1, hz2, hz3⟩
        have hx : x = z := by injection hz1
        have hy : y = z := by injection hz2
        subst hx
        subst hy
        exact ⟨⟨⟨⟨h1, h2⟩, h3⟩, h4⟩, rfl, hz3⟩

theorem runAt_facts [DecidableEq α] (a b : List α) (pop : α → Bool)
    (alo ahi blo bhi : Nat) :
    ∀ i j, runAt a b pop alo ahi blo bhi i j ≠ 0 →
      i < ahi ∧ j < bhi ∧ runAt a b pop alo ahi blo bhi i j + alo ≤ i + 1 ∧
        runAt a b pop alo ahi blo bhi i j + blo ≤ j + 1 := by
  intro i
  induction i with
  | zero =>
    intro j h
    unfold runAt at h ⊢
    by_cases hm : matchOk a b pop alo ahi blo bhi 0 j = true
    · obtain ⟨h1, h2, h3, h4, -⟩ := (matchOk_iff a b pop alo ahi blo bhi 0 j).1 hm
      simp only [hm, if_true]
      omega
    · simp [hm] at h
  | succ i ih =>
    intro j h
    cases j with
    | zero =>
      unfold runAt at h ⊢
      by_cases hm : matchOk a b pop alo ahi blo bhi (i + 1) 0 = true
      · obtain ⟨h1, h2, h3, h4, -⟩ := (matchOk_iff a b pop alo ahi blo bhi (i + 1) 0).1 hm
        simp only [hm, if_true]
        omega
      · simp [hm] at h
    | succ j =>
      unfold runAt at h ⊢
      by_cases hm : matchOk a b pop alo ahi blo bhi (i + 1) (j + 1) = true
      · obtain ⟨h1, h2, h3, h4, -⟩ :=
          (matchOk_iff a b pop alo ahi blo bhi (i + 1) (j + 1)).1 hm
        simp only [hm, if_true]
        by_cases hz : runAt a b pop alo ahi blo bhi i j = 0
        · rw [hz]
          omega
        · obtain ⟨g1, g2, g3, g4⟩ := ih j hz
          omega
      · simp [hm] at h

/-- Window/size invariant carried by the scan best triple. -/
def ScanInv (alo blo ahi bhi : Nat) (best : Nat × Nat × Nat) : Prop :=
  alo ≤ best.1 ∧ blo ≤ best.2.1 ∧ best.1 + best.2.2 ≤ ahi ∧ best.2.1 + best.2.2 ≤ bhi

theorem bestStep_inv [DecidableEq α] (a b : List α) (pop : α → Bool)
    (alo ahi blo bhi i j : Nat) (best : Nat × Nat × Nat)
    (h : ScanInv alo blo ahi bhi best) :
    ScanInv alo blo ahi bhi (bestStep a b pop alo ahi blo bhi i best j) := by
  unfold bestStep
  by_cases hlt : best.2.2 < runAt a b pop alo ahi blo bhi i j
  · have hne : runAt a b pop alo ahi blo bhi i j ≠ 0 := by omega
    obtain ⟨h1, h2, h3, h4⟩ := runAt_facts a b pop alo ahi blo bhi i j hne
    simp only [hlt, if_true]
    unfold ScanInv
    dsimp only
    refine ⟨by omega, by omega, by omega, by omega⟩
  · simp only [hlt, if_false]
    exact h

theorem scanBest_inv [DecidableEq α] (a b : List α) (pop : α → Bool)
    (alo ahi blo bhi : Nat) (ha : alo ≤ ahi) (hb : blo ≤ bhi) :
    ScanInv alo blo ahi bhi (scanBest a b pop alo ahi blo bhi) := by
  unfold scanBest
  apply foldl_inv (P := ScanInv alo blo ahi bhi)
  · intro s i hs
    unfold scanRow
    exact foldl_inv _ _ (fun s j hs => bestStep_inv a b pop alo ahi blo bhi i j s hs) _ _ hs
  · unfold ScanInv
    dsimp only
    exact ⟨Nat.le_refl _, Nat.le_refl _, by omega, by omega⟩

theorem extendBack_spec [DecidableEq α] (a b : List α) (alo blo : Nat) :
    ∀ i j k, alo ≤ i → blo ≤ j →
      (extendBack a b alo blo i j k).1 + (extendBack a b alo blo i j k).2.2 = i + k ∧
      (extendBack a b alo blo i j k).2.1 + (extendBack a b alo blo i j k).2.2 = j + k ∧
      alo ≤ (extendBack a b alo blo i j k).1 ∧ blo ≤ (extendBack a b alo blo i j k).2.1 := by
  intro i
  induction i with
  | zero =>
    intro j k h1 h2
    dsimp only [extendBack]
    exact ⟨rfl, rfl, h1, h2⟩
  | succ i ih =>
    intro j k h1 h2
    cases j with
    | zero =>
      dsimp only [extendBack]
      exact ⟨rfl, rfl, h1, h2⟩
    | succ j =>
      rw [extendBack]
      by_cases hg : (decide (alo ≤ i) && decide (blo ≤ j) && elemEq a b i j) = true
      · simp only [hg, if_true]
        have hai : alo ≤ i := by
          have := hg
          simp only [Bool.and_eq_true, decide_eq_true_eq] at this
          exact this.1.1
        have hbj : blo ≤ j := by
          simp only [Bool.and_eq_true, decide_eq_true_eq] at hg
          exact hg.1.2
        obtain ⟨g1, g2, g3, g4⟩ := ih j (k + 1) hai hbj
        exact ⟨by omega, by omega, g3, g4⟩
      · simp only [hg, if_false]
        exact ⟨rfl, rfl, h1, h2⟩

theorem extendForwardAux_bounds [DecidableEq α] (a b : List α) (ahi bhi i j : Nat) :
    ∀ fuel k, i + k ≤ ahi → j + k ≤ bhi →
      k ≤ extendForwardAux a b ahi bhi i j fuel k ∧
      i + extendForwardAux a b ahi bhi i j fuel k ≤ ahi ∧
      j + extendForwardAux a b ahi bhi i j fuel k ≤ bhi := by
  intro fuel
  induction fuel with
  | zero =>
    intro k h1 h2
    simp only [extendForwardAux]
    exact ⟨Nat.le_refl _, h1, h2⟩
  | succ fuel ih =>
    intro k h1 h2
    rw [extendForwardAux]
    by_cases hg : (decide (i + k < ahi) && decide (j + k < bhi) &&
        elemEq a b (i + k) (j + k)) = true
    · simp only [hg, if_true]
      simp only [Bool.and_eq_true, decide_eq_true_eq] at hg
      obtain ⟨g1, g2, g3⟩ := ih (k + 1) (by omega) (by omega)
      exact ⟨by omega, g2, g3⟩
    · simp only [hg, if_false]
      exact ⟨Nat.le_refl _, h1, h2⟩

theorem flm_bounds [DecidableEq α] (a b : List α) (pop : α → Bool)
    (alo ahi blo bhi : Nat) (ha : alo ≤ ahi) (hb : blo ≤ bhi)
    {mi mj mk : Nat} (hm : findLongestMatch a b pop alo ahi blo bhi = (mi, mj, mk)) :
    alo ≤ mi ∧ blo ≤ mj ∧ mi + mk ≤ ahi ∧ mj + mk ≤ bhi := by
  obtain ⟨s1, s2, s3, s4⟩ := scanBest_inv a b pop alo ahi blo bhi ha hb
  obtain ⟨e1, e2, e3, e4⟩ := extendBack_spec a b alo blo (scanBest a b pop alo ahi blo bhi).1
    (scanBest a b pop alo ahi blo bhi).2.1 (scanBest a b pop alo ahi blo bhi).2.2 s1 s2
  unfold findLongestMatch at hm
  dsimp only at hm
  set t := extendBack a b alo blo (scanBest a b pop alo ahi blo bhi).1
    (scanBest a b pop alo ahi blo bhi).2.1 (scanBest a b pop alo ahi blo bhi).2.2 with ht
  obtain ⟨f1, f2, f3⟩ := extendForwardAux_bounds a b ahi bhi t.1 t.2.1
    (ahi - (t.1 + t.2.2)) t.2.2 (by omega) (by omega)
  rw [Prod.ext_iff, Prod.ext_iff] at hm
  dsimp only at hm
  obtain ⟨hm1, hm2, hm3⟩ := hm
  subst hm1
  subst hm2
  subst hm3
  exact ⟨by omega, by omega, by omega, by omega⟩

/-! ## Block chains and the counting identity

`chainBlocks i j ahi bhi l` says the blocks of `l` lie at or after cursor
`(i, j)`, advance monotonically in both coordinates, and end within
`(ahi, bhi)`.  All block lists produced by the matcher are chains, and for a
chain the opcode fold of `compute_diff` counts exactly the tokens of either
side not covered by a block. -/

def chainBlocks : Nat → Nat → Nat → Nat → List (Nat × Nat × Nat) → Prop
  | i, j, ahi, bhi, [] => i ≤ ahi ∧ j ≤ bhi
  | i, j, ahi, bhi, (bi, bj, bk) :: rest =>
    i ≤ bi ∧ j ≤ bj ∧ chainBlocks (bi + bk) (bj + bk) ahi bhi rest

def endCursor : Nat → Nat → List (Nat × Nat × Nat) → Nat × Nat
  | i, j, [] => (i, j)
  | _, _, (bi, bj, bk) :: rest => endCursor (bi + bk) (bj + bk) rest

def sumK (l : List (Nat × Nat × Nat)) : Nat :=
  (l.map (fun t => t.2.2)).sum

theorem chainBlocks_weaken (ahi bhi : Nat) :
    ∀ (l : List (Nat × Nat × Nat)) (i j i' j' : Nat), i ≤ i' → j ≤ j' →
      chainBlocks i' j' ahi bhi l → chainBlocks i j ahi bhi l := by
  intro l i j i' j' hi hj h
  cases l with
  | nil =>
    simp only [chainBlocks] at h ⊢
    omega
  | cons hd tl =>
    obtain ⟨bi, bj, bk⟩ := hd
    simp only [chainBlocks] at h ⊢
    exact ⟨by omega, by omega, h.2.2⟩

theorem chainBlocks_append (ahi bhi : Nat) :
    ∀ (l1 l2 : List (Nat × Nat × Nat)) (i j m1 m2 : Nat),
      chainBlocks i j m1 m2 l1 → chainBlocks m1 m2 ahi bhi l2 →
      chainBlocks i j ahi bhi (l1 ++ l2) := by
  intro l1
  induction l1 with
  | nil =>
    intro l2 i j m1 m2 h1 h2
    simp only [chainBlocks] at h1
    exact chainBlocks_weaken ahi bhi l2 i j m1 m2 h1.1 h1.2 h2
  | cons hd tl ih =>
    intro l2 i j m1 m2 h1 h2
    obtain ⟨bi, bj, bk⟩ := hd
    simp only [chainBlocks, List.cons_append] at h1 ⊢
    exact ⟨h1.1, h1.2.1, ih l2 (bi + bk) (bj + bk) m1 m2 h1.2.2 h2⟩

theorem matchingBlocksAux_chain [DecidableEq α] (a b : List α) (pop : α → Bool) :
    ∀ fuel alo ahi blo bhi, alo ≤ ahi → blo ≤ bhi →
      chainBlocks alo blo ahi bhi (matchingBlocksAux a b pop fuel alo ahi blo bhi) := by
  intro fuel
  induction fuel with
  | zero =>
    intro alo ahi blo bhi ha hb
    simp only [matchingBlocksAux, chainBlocks]
    exact ⟨ha, hb⟩
  | succ fuel ih =>
    intro alo ahi blo bhi ha hb
    rw [matchingBlocksAux]
    rcases hmm : findLongestMatch a b pop alo ahi blo bhi with ⟨mi, mj, mk⟩
    obtain ⟨f1, f2, f3, f4⟩ := flm_bounds a b pop alo ahi blo bhi ha hb hmm
    by_cases hk : 0 < mk
    · simp only [hk, if_true]
      apply chainBlocks_append ahi bhi _ _ alo blo mi mj
      · by_cases hg : alo < mi ∧ blo < mj
        · simp only [hg, if_true]
          exact ih alo mi blo mj (Nat.le_of_lt hg.1) (Nat.le_of_lt hg.2)
        · simp only [hg, if_false]
          simp only [chainBlocks]
          exact ⟨f1, f2⟩
      · refine ⟨Nat.le_refl _, Nat.le_refl _, ?_⟩
        by_cases hg2 : mi + mk < ahi ∧ mj + mk < bhi
        · simp only [hg2, if_true]
          exact ih (mi + mk) ahi (mj + mk) bhi (Nat.le_of_lt hg2.1) (Nat.le_of_lt hg2.2)
        · simp only [hg2, if_false]
          simp only [chainBlocks]
          exact ⟨f3, f4⟩
    · simp only [hk, if_false]
      simp only [chainBlocks]
      exact ⟨ha, hb⟩

theorem mergeAdjacent_chain (ahi bhi : Nat) :
    ∀ (l : List (Nat × Nat × Nat)) (i1 j1 k1 : Nat),
      chainBlocks (i1 + k1) (j1 + k1) ahi bhi l →
      chainBlocks i1 j1 ahi bhi (mergeAdjacent (i1, j1, k1) l) := by
  intro l
  induction l with
  | nil =>
    intro i1 j1 k1 h
    simp only [chainBlocks] at h
    rw [mergeAdjacent]
    by_cases hk : k1 ≠ 0
    · rw [if_pos hk]
      simp only [chainBlocks]
      exact ⟨Nat.le_refl _, Nat.le_refl _, h.1, h.2⟩
    · rw [if_neg hk]
      simp only [chainBlocks]
      omega
  | cons hd rest ih =>
    intro i1 j1 k1 h
    obtain ⟨i2, j2, k2⟩ := hd
    simp only [chainBlocks] at h
    obtain ⟨h1, h2, h3⟩ := h
    rw [mergeAdjacent]
    by_cases hadj : i1 + k1 = i2 ∧ j1 + k1 = j2
    · rw [if_pos hadj]
      apply ih i1 j1 (k1 + k2)
      have hi2 : i1 + (k1 + k2) = i2 + k2 := by omega
      rw [hi2]
      have hj2 : j1 + (k1 + k2) = j2 + k2 := by omega
      rw [hj2]
      exact h3
    · rw [if_neg hadj]
      by_cases hk : k1 ≠ 0
      · rw [if_pos hk]
        simp only [chainBlocks]
        refine ⟨Nat.le_refl _, Nat.le_refl _, ?_⟩
        exact chainBlocks_weaken ahi bhi _ _ _ i2 j2 h1 h2 (ih i2 j2 k2 h3)
      · rw [if_neg hk]
        exact chainBlocks_weaken ahi bhi _ i1 j1 i2 j2 (by omega) (by omega) (ih i2 j2 k2 h3)

theorem getMatchingBlocks_chain [DecidableEq α] (a b : List α) (pop : α → Bool) :
    chainBlocks 0 0 a.length b.length (getMatchingBlocks a b pop) := by
  unfold getMatchingBlocks
  apply chainBlocks_append a.length b.length _ _ 0 0 a.length b.length
  · have h := matchingBlocksAux_chain a b pop (a.length + b.length + 1) 0 a.length 0 b.length
      (Nat.zero_le _) (Nat.zero_le _)
    exact mergeAdjacent_chain a.length b.length _ 0 0 0 h
  · simp only [chainBlocks]
    exact ⟨Nat.le_refl _, Nat.le_refl _, Nat.le_refl _, Nat.le_refl _⟩

theorem endCursor_append :
    ∀ (l1 l2 : List (Nat × Nat × Nat)) (i j : Nat),
      endCursor i j (l1 ++ l2) =
        endCursor (endCursor i j l1).1 (endCursor i j l1).2 l2 := by
  intro l1
  induction l1 with
  | nil => intro l2 i j; simp [endCursor]
  | cons hd tl ih =>
    intro l2 i j
    obtain ⟨bi, bj, bk⟩ := hd
    simp only [List.cons_append, endCursor]
    exact ih l2 (bi + bk) (bj + bk)

theorem getMatchingBlocks_endCursor [DecidableEq α] (a b : List α) (pop : α → Bool) :
    endCursor 0 0 (getMatchingBlocks a b pop) = (a.length, b.length) := by
  unfold getMatchingBlocks
  rw [endCursor_append]
  simp [endCursor]

/-- Telescoping: folding the opcodes of a chain starting at cursor `(i, j)`
adds `end2 - j - matched` insertions and `end1 - i - matched` deletions. -/
theorem diffCounts_opcodesAux :
    ∀ (l : List (Nat × Nat × Nat)) (i j ahi bhi A D : Nat),
      chainBlocks i j ahi bhi l →
      ((opcodesAux i j l).foldl diffStep (A, D)).1 + j + sumK l =
          A + (endCursor i j l).2 ∧
      ((opcodesAux i j l).foldl diffStep (A, D)).2 + i + sumK l =
          D + (endCursor i j l).1 := by
  intro l
  induction l with
  | nil =>
    intro i j ahi bhi A D h
    simp [opcodesAux, endCursor, sumK]
  | cons hd rest ih =>
    intro i j ahi bhi A D h
    obtain ⟨bi, bj, bk⟩ := hd
    simp only [chainBlocks] at h
    obtain ⟨h1, h2, h3⟩ := h
    rw [opcodesAux]
    rw [List.foldl_append, List.foldl_append]
    have hgap :
        ((if i < bi ∧ j < bj then [(OpTag.replace, i, bi, j, bj)]
          else if i < bi then [(OpTag.delete, i, bi, j, bj)]
          else if j < bj then [(OpTag.insert, i, bi, j, bj)]
          else []).foldl diffStep (A, D)) = (A + (bj - j), D + (bi - i)) := by
      by_cases hr : i < bi ∧ j < bj
      · rw [if_pos hr]
        simp [diffStep]
      · rw [if_neg hr]
        by_cases hdel : i < bi
        · have hjb : j = bj := by omega
          rw [if_pos hdel]
          simp [diffStep, hjb]
        · have hib : i = bi := by omega
          rw [if_neg hdel]
          by_cases hins : j < bj
          · rw [if_pos hins]
            simp [diffStep, hib]
          · have hjb : j = bj := by omega
            rw [if_neg hins]
            simp [hib, hjb]
    rw [hgap]
    have heq :
        ((if bk ≠ 0 then [(OpTag.equal, bi, bi + bk, bj, bj + bk)] else []).foldl
          diffStep (A + (bj - j), D + (bi - i))) = (A + (bj - j), D + (bi - i)) := by
      by_cases hbk : bk ≠ 0
      · rw [if_pos hbk]
        simp [diffStep]
      · rw [if_neg hbk]
        rfl
    rw [heq]
    have hrec := ih (bi + bk) (bj + bk) ahi bhi (A + (bj - j)) (D + (bi - i)) h3
    simp only [endCursor, sumK, List.map_cons, List.sum_cons] at hrec ⊢
    have hsk : sumK rest = (rest.map (fun t => t.2.2)).sum := rfl
    omega

/-- For non-empty `prev`, compute_diff returns
`(|curr| - matched, |prev| - matched)`; in additive form this is the net
identity `added + |prev| = deleted + |curr|`, which also covers the
empty-`prev` short-circuit. -/
theorem computeDiffTokens_net [DecidableEq α] (prev curr : List α) :
    (computeDiffTokens prev curr).1 + prev.length =
      (computeDiffTokens prev curr).2 + curr.length := by
  unfold computeDiffTokens
  by_cases hp : prev = []
  · simp [hp]
  · simp only [hp, if_false]
    unfold diffCounts getOpcodes
    have hchain := getMatchingBlocks_chain prev curr (isPopular curr)
    have hcount := diffCounts_opcodesAux (getMatchingBlocks prev curr (isPopular curr))
      0 0 prev.length curr.length 0 0 hchain
    rw [getMatchingBlocks_endCursor] at hcount
    dsimp only at hcount
    omega

/-! ## The diff of a sequence against itself

On `a` against `a`, every run found by the scan is dominated by the diagonal
run of the same row (or the same column), and the diagonal run is scanned
first, so the strict-improvement update of difflib only ever fires on the
diagonal.  The extension loops then stretch a diagonal best to the whole
window, so the top-level find_longest_match returns the full range. -/

theorem runAt_le_diag_left [DecidableEq α] (a : List α) (pop : α → Bool) (n : Nat) :
    ∀ j i, j ≤ i →
      runAt a a pop 0 n 0 n i j ≤ runAt a a pop 0 n 0 n j j := by
  intro j
  induction j with
  | zero =>
    intro i _
    cases i with
    | zero => exact Nat.le_refl _
    | succ i =>
      unfold runAt
      by_cases hm : matchOk a a pop 0 n 0 n (i + 1) 0 = true
      · obtain ⟨-, -, -, h4, x, hx1, hx2, hx3⟩ :=
          (matchOk_iff a a pop 0 n 0 n (i + 1) 0).1 hm
        have hm0 : matchOk a a pop 0 n 0 n 0 0 = true :=
          (matchOk_iff a a pop 0 n 0 n 0 0).2 ⟨Nat.le_refl _, h4, Nat.le_refl _, h4, x, hx2, hx2, hx3⟩
        rw [if_pos hm, if_pos hm0]
      · rw [if_neg hm]
        exact Nat.zero_le _
  | succ j ih =>
    intro i hji
    cases i with
    | zero => omega
    | succ i =>
      have hij : j ≤ i := by omega
      unfold runAt
      by_cases hm : matchOk a a pop 0 n 0 n (i + 1) (j + 1) = true
      · obtain ⟨-, -, -, h4, x, hx1, hx2, hx3⟩ :=
          (matchOk_iff a a pop 0 n 0 n (i + 1) (j + 1)).1 hm
        have hmd : matchOk a a pop 0 n 0 n (j + 1) (j + 1) = true :=
          (matchOk_iff a a pop 0 n 0 n (j + 1) (j + 1)).2
            ⟨Nat.zero_le _, h4, Nat.zero_le _, h4, x, hx2, hx2, hx3⟩
        rw [if_pos hm, if_pos hmd]
        exact Nat.succ_le_succ (ih i hij)
      · rw [if_neg hm]
        exact Nat.zero_le _

theorem runAt_le_diag_right [DecidableEq α] (a : List α) (pop : α → Bool) (n : Nat) :
    ∀ i j, i ≤ j →
      runAt a a pop 0 n 0 n i j ≤ runAt a a pop 0 n 0 n i i := by
  intro i
  induction i with
  | zero =>
    intro j _
    cases j with
    | zero => exact Nat.le_refl _
    | succ j =>
      unfold runAt
      by_cases hm : matchOk a a pop 0 n 0 n 0 (j + 1) = true
      · obtain ⟨-, h2, -, -, x, hx1, hx2, hx3⟩ :=
          (matchOk_iff a a pop 0 n 0 n 0 (j + 1)).1 hm
        have hm0 : matchOk a a pop 0 n 0 n 0 0 = true :=
          (matchOk_iff a a pop 0 n 0 n 0 0).2 ⟨Nat.le_refl _, h2, Nat.le_refl _, h2, x, hx1, hx1, hx3⟩
        rw [if_pos hm, if_pos hm0]
      · rw [if_neg hm]
        exact Nat.zero_le _
  | succ i ih =>
    intro j hij
    cases j with
    | zero => omega
    | succ j =>
      have hij' : i ≤ j := by omega
      unfold runAt
      by_cases hm : matchOk a a pop 0 n 0 n (i + 1) (j + 1) = true
      · obtain ⟨-, h2, -, -, x, hx1, hx2, hx3⟩ :=
          (matchOk_iff a a pop 0 n 0 n (i + 1) (j + 1)).1 hm
        have hmd : matchOk a a pop 0 n 0 n (i + 1) (i + 1) = true :=
          (matchOk_iff a a pop 0 n 0 n (i + 1) (i + 1)).2
            ⟨Nat.zero_le _, h2, Nat.zero_le _, h2, x, hx1, hx1, hx3⟩
        rw [if_pos hm, if_pos hmd]
        exact Nat.succ_le_succ (ih j hij')
      · rw [if_neg hm]
        exact Nat.zero_le _

theorem scanRow_self_diag [DecidableEq α] (a : List α) (pop : α → Bool) (n i : Nat) :
    ∀ (cnt c : Nat) (best : Nat × Nat × Nat),
      best.1 = best.2.1 →
      (∀ i', i' < i → runAt a a pop 0 n 0 n i' i' ≤ best.2.2) →
      (∀ j', j' < c → runAt a a pop 0 n 0 n i j' ≤ best.2.2) →
      ((List.range' c cnt).foldl (bestStep a a pop 0 n 0 n i) best).1 =
        ((List.range' c cnt).foldl (bestStep a a pop 0 n 0 n i) best).2.1 ∧
      best.2.2 ≤ ((List.range' c cnt).foldl (bestStep a a pop 0 n 0 n i) best).2.2 ∧
      (∀ i', i' < i → runAt a a pop 0 n 0 n i' i' ≤
        ((List.range' c cnt).foldl (bestStep a a pop 0 n 0 n i) best).2.2) ∧
      (∀ j', j' < c + cnt → runAt a a pop 0 n 0 n i j' ≤
        ((List.range' c cnt).foldl (bestStep a a pop 0 n 0 n i) best).2.2) := by
  intro cnt
  induction cnt with
  | zero =>
    intro c best hdiag hrows hcols
    simp only [List.range', List.foldl_nil]
    exact ⟨hdiag, Nat.le_refl _, hrows, fun j' hj' => hcols j' (by omega)⟩
  | succ cnt ih =>
    intro c best hdiag hrows hcols
    rw [List.range'_succ, List.foldl_cons]
    by_cases hup : best.2.2 < runAt a a pop 0 n 0 n i c
    · have hci : c = i := by
        rcases Nat.lt_trichotomy c i with hci | hci | hci
        · exact absurd (Nat.lt_of_lt_of_le hup
            (Nat.le_trans (runAt_le_diag_left a pop n c i (Nat.le_of_lt hci))
              (hrows c hci))) (Nat.lt_irrefl _)
        · exact hci
        · exact absurd (Nat.lt_of_lt_of_le hup
            (Nat.le_trans (runAt_le_diag_right a pop n i c (Nat.le_of_lt hci))
              (hcols i hci))) (Nat.lt_irrefl _)
      have hstep : bestStep a a pop 0 n 0 n i best c =
          (i + 1 - runAt a a pop 0 n 0 n i c, c + 1 - runAt a a pop 0 n 0 n i c,
            runAt a a pop 0 n 0 n i c) := by
        unfold bestStep
        rw [if_pos hup]
      rw [hstep]
      obtain ⟨g1, g2, g3, g4⟩ := ih (c + 1)
        (i + 1 - runAt a a pop 0 n 0 n i c, c + 1 - runAt a a pop 0 n 0 n i c,
          runAt a a pop 0 n 0 n i c)
        (by dsimp only; rw [hci])
        (by
          intro i' hi'
          dsimp only
          exact Nat.le_of_lt (Nat.lt_of_le_of_lt (hrows i' hi') hup))
        (by
          intro j' hj'
          dsimp only
          rcases Nat.lt_or_ge j' c with hlt | hge
          · exact Nat.le_of_lt (Nat.lt_of_le_of_lt (hcols j' hlt) hup)
          · have hjc : j' = c := by omega
            rw [hjc])
      refine ⟨g1, ?_, g3, fun j' hj' => g4 j' (by omega)⟩
      dsimp only at g2
      exact Nat.le_trans (Nat.le_of_lt hup) g2
    · have hstep : bestStep a a pop 0 n 0 n i best c = best := by
        unfold bestStep
        rw [if_neg hup]
      rw [hstep]
      obtain ⟨g1, g2, g3, g4⟩ := ih (c + 1) best hdiag hrows
        (by
          intro j' hj'
          rcases Nat.lt_or_ge j' c with hlt | hge
          · exact hcols j' hlt
          · have hjc : j' = c := by omega
            rw [hjc]
            exact Nat.le_of_not_lt hup)
      exact ⟨g1, g2, g3, fun j' hj' => g4 j' (by omega)⟩

theorem scanBest_self_diag [DecidableEq α] (a : List α) (pop : α → Bool) (n : Nat) :
    ∀ (cnt r : Nat) (best : Nat × Nat × Nat),
      r + cnt ≤ n →
      best.1 = best.2.1 →
      (∀ i', i' < r → runAt a a pop 0 n 0 n i' i' ≤ best.2.2) →
      ((List.range' r cnt).foldl
          (fun best i => scanRow a a pop 0 n 0 n i best) best).1 =
        ((List.range' r cnt).foldl
          (fun best i => scanRow a a pop 0 n 0 n i best) best).2.1 := by
  intro cnt
  induction cnt with
  | zero =>
    intro r best _ hdiag _
    simpa using hdiag
  | succ cnt ih =>
    intro r best hr hdiag hrows
    rw [List.range'_succ, List.foldl_cons]
    have hrow := scanRow_self_diag a pop n r n 0 best hdiag hrows
      (fun j' hj' => absurd hj' (Nat.not_lt_zero _))
    obtain ⟨g1, g2, g3, g4⟩ := hrow
    have hrn : r < n := by omega
    apply ih (r + 1)
    · omega
    · unfold scanRow
      simpa using g1
    · intro i' hi'
      unfold scanRow
      simp only [Nat.zero_sub, Nat.sub_zero]
      rcases Nat.lt_or_ge i' r with hlt | hge
      · exact g3 i' hlt
      · have hir : i' = r := by omega
        rw [hir]
        exact g4 r (by omega)

theorem extendBack_self_diag [DecidableEq α] (a : List α) (n : Nat) (hn : n ≤ a.length) :
    ∀ m k, m + k ≤ n → extendBack a a 0 0 m m k = (0, 0, k + m) := by
  intro m
  induction m with
  | zero =>
    intro k _
    simp [extendBack]
  | succ m ih =>
    intro k hmk
    rw [extendBack]
    have hg : (decide (0 ≤ m) && decide (0 ≤ m) && elemEq a a m m) = true := by
      have hml : m < a.length := by omega
      have hx : a[m]? = some a[m] := List.getElem?_eq_getElem hml
      simp [elemEq, hx]
    rw [if_pos hg]
    rw [ih (k + 1) (by omega)]
    have harith : k + 1 + m = k + (m + 1) := by omega
    rw [harith]

theorem extendForwardAux_self_full [DecidableEq α] (a : List α) (n : Nat) (hn : n ≤ a.length) :
    ∀ fuel k, fuel = n - k → k ≤ n → extendForwardAux a a n n 0 0 fuel k = n := by
  intro fuel
  induction fuel with
  | zero =>
    intro k h1 h2
    simp only [extendForwardAux]
    omega
  | succ fuel ih =>
    intro k h1 h2
    rw [extendForwardAux]
    have hkn : k < n := by omega
    have hg : (decide (0 + k < n) && decide (0 + k < n) && elemEq a a (0 + k) (0 + k)) = true := by
      have hkl : k < a.length := by omega
      have hx : a[k]? = some a[k] := List.getElem?_eq_getElem hkl
      simp only [Nat.zero_add]
      simp [elemEq, hx, hkn]
    rw [if_pos hg]
    exact ih (k + 1) (by omega) (by omega)

theorem flm_self [DecidableEq α] (a : List α) (pop : α → Bool) :
    findLongestMatch a a pop 0 a.length 0 a.length = (0, 0, a.length) := by
  have hdiag : (scanBest a a pop 0 a.length 0 a.length).1 =
      (scanBest a a pop 0 a.length 0 a.length).2.1 := by
    unfold scanBest
    exact scanBest_self_diag a pop a.length (a.length - 0) 0 (0, 0, 0) (by omega) rfl
      (fun i' hi' => absurd hi' (Nat.not_lt_zero _))
  obtain ⟨s1, s2, s3, s4⟩ := scanBest_inv a a pop 0 a.length 0 a.length
    (Nat.zero_le _) (Nat.zero_le _)
  unfold findLongestMatch
  dsimp only
  set s := scanBest a a pop 0 a.length 0 a.length with hs
  have hback : extendBack a a 0 0 s.1 s.2.1 s.2.2 = (0, 0, s.2.2 + s.1) := by
    rw [← hdiag]
    exact extendBack_self_diag a a.length (Nat.le_refl _) s.1 s.2.2 (by omega)
  rw [hback]
  dsimp only
  rw [extendForwardAux_self_full a a.length (Nat.le_refl _) _ _ (by omega) (by omega)]

theorem computeDiffTokens_self [DecidableEq α] (A : List α) :
    computeDiffTokens A A = (0, 0) := by
  by_cases hA : A = []
  · subst hA
    simp [computeDiffTokens]
  · unfold computeDiffTokens
    rw [if_neg hA]
    have hn : 0 < A.length := List.length_pos.2 hA
    have hn' : A.length ≠ 0 := by omega
    have hblocks : matchingBlocks A A (isPopular A) = [(0, 0, A.length)] := by
      unfold matchingBlocks
      rw [matchingBlocksAux]
      rw [flm_self]
      dsimp only
      rw [if_pos hn]
      rw [if_neg (by omega : ¬((0 : Nat) < 0 ∧ (0 : Nat) < 0))]
      rw [if_neg (by omega : ¬(0 + A.length < A.length ∧ 0 + A.length < A.length))]
      simp
    unfold getOpcodes getMatchingBlocks
    rw [hblocks]
    simp [mergeAdjacent, opcodesAux, diffCounts, diffStep, hn']

/-- C5: for every token sequence `A`, of any length and content, diffing `A`
against itself yields exactly `(0, 0)` words added and deleted. -/
theorem claim_C5_diff_self (A : List String) : computeDiffTokens A A = (0, 0) :=
  computeDiffTokens_self A

/-- C9: for all token sequences `A` and `B`, the net change is antisymmetric
under swapping the arguments:
`diff(A,B).added - diff(A,B).deleted = diff(B,A).deleted - diff(B,A).added`. -/
theorem claim_C9_net_antisymm (A B : List String) :
    ((computeDiffTokens A B).1 : Int) - ((computeDiffTokens A B).2 : Int) =
      ((computeDiffTokens B A).2 : Int) - ((computeDiffTokens B A).1 : Int) := by
  have h1 := computeDiffTokens_net A B
  have h2 := computeDiffTokens_net B A
  omega

/-- C10: for every pair of input texts, including empty and whitespace-only
texts, compute_diff returns non-negative counts whose difference
`added - deleted` is exactly the difference of whitespace-token counts of
the two texts, regardless of the alignment found by the matcher. -/
theorem claim_C10_net_eq_token_count_diff (prevText currText : String) :
    0 ≤ ((computeDiff prevText currText).1 : Int) ∧
    0 ≤ ((computeDiff prevText currText).2 : Int) ∧
    ((computeDiff prevText currText).1 : Int) - ((computeDiff prevText currText).2 : Int) =
      ((tokenize currText).length : Int) - ((tokenize prevText).length : Int) := by
  refine ⟨Int.ofNat_nonneg _, Int.ofNat_nonneg _, ?_⟩
  have h := computeDiffTokens_net (tokenize prevText) (tokenize currText)
  unfold computeDiff
  omega

/-! ## LCS facts

`lcsLen` is an upper bound on the length of every common subsequence, and is
attained by one, so the spec's minimum `|prev| + |curr| - 2 * lcs` is the
least possible number of insertions plus deletions. -/

theorem sublist_tail_of_cons_cons {α : Type _} {c x : α} {cs xs : List α}
    (h : (c :: cs).Sublist (x :: xs)) : cs.Sublist xs := by
  cases h with
  | cons _ h => exact (List.sublist_cons_self c cs).trans h
  | cons₂ _ h => exact h

theorem lcsLenAux_ge [DecidableEq α] :
    ∀ (fuel : Nat) (xs ys cs : List α), xs.length + ys.length ≤ fuel →
      cs.Sublist xs → cs.Sublist ys → cs.length ≤ lcsLenAux fuel xs ys := by
  intro fuel
  induction fuel with
  | zero =>
    intro xs ys cs h h1 h2
    have hxs : xs = [] := by
      cases xs with
      | nil => rfl
      | cons a l => simp at h
    subst hxs
    have hcs : cs = [] := List.sublist_nil.1 h1
    subst hcs
    simp [lcsLenAux]
  | succ fuel ih =>
    intro xs ys cs h h1 h2
    cases xs with
    | nil =>
      have hcs : cs = [] := List.sublist_nil.1 h1
      subst hcs
      simp [lcsLenAux]
    | cons x xs =>
      cases ys with
      | nil =>
        have hcs : cs = [] := List.sublist_nil.1 h2
        subst hcs
        simp [lcsLenAux]
      | cons y ys =>
        simp only [List.length_cons] at h
        rw [lcsLenAux]
        by_cases hxy : x = y
        · rw [if_pos hxy]
          cases cs with
          | nil => simp
          | cons c cs =>
            have hc1 : cs.Sublist xs := sublist_tail_of_cons_cons h1
            have hc2 : cs.Sublist ys := sublist_tail_of_cons_cons h2
            have := ih xs ys cs (by omega) hc1 hc2
            simp only [List.length_cons]
            omega
        · rw [if_neg hxy]
          cases cs with
          | nil => simp
          | cons c cs =>
            cases h2 with
            | cons _ h2' =>
              have := ih (x :: xs) ys (c :: cs) (by simp; omega) h1 h2'
              exact Nat.le_trans this (Nat.le_max_left _ _)
            | cons₂ _ h2' =>
              cases h1 with
              | cons _ h1' =>
                have := ih xs (y :: ys) (y :: cs) (by simp; omega) h1'
                  (List.Sublist.cons₂ _ h2')
                exact Nat.le_trans this (Nat.le_max_right _ _)
              | cons₂ _ h1' => exact absurd rfl hxy

theorem lcsLenAux_realizable [DecidableEq α] :
    ∀ (fuel : Nat) (xs ys : List α),
      ∃ cs : List α, cs.Sublist xs ∧ cs.Sublist ys ∧ cs.length = lcsLenAux fuel xs ys := by
  intro fuel
  induction fuel with
  | zero =>
    intro xs ys
    refine ⟨[], List.nil_sublist _, List.nil_sublist _, ?_⟩
    cases xs <;> cases ys <;> simp [lcsLenAux]
  | succ fuel ih =>
    intro xs ys
    cases xs with
    | nil => exact ⟨[], List.nil_sublist _, List.nil_sublist _, by simp [lcsLenAux]⟩
    | cons x xs =>
      cases ys with
      | nil => exact ⟨[], List.nil_sublist _, List.nil_sublist _, by simp [lcsLenAux]⟩
      | cons y ys =>
        rw [lcsLenAux]
        by_cases hxy : x = y
        · subst hxy
          rw [if_pos rfl]
          obtain ⟨cs, hc1, hc2, hc3⟩ := ih xs ys
          exact ⟨x :: cs, List.Sublist.cons₂ _ hc1, List.Sublist.cons₂ _ hc2, by simp [hc3]⟩
        · rw [if_neg hxy]
          rcases Nat.le_total (lcsLenAux fuel (x :: xs) ys) (lcsLenAux fuel xs (y :: ys)) with
            hle | hle
          · obtain ⟨cs, hc1, hc2, hc3⟩ := ih xs (y :: ys)
            refine ⟨cs, List.Sublist.cons _ hc1, hc2, ?_⟩
            rw [hc3, Nat.max_eq_right hle]
          · obtain ⟨cs, hc1, hc2, hc3⟩ := ih (x :: xs) ys
            refine ⟨cs, hc1, List.Sublist.cons _ hc2, ?_⟩
            rw [hc3, Nat.max_eq_left hle]

theorem lcsLen_ge [DecidableEq α] (xs ys cs : List α)
    (h1 : cs.Sublist xs) (h2 : cs.Sublist ys) : cs.length ≤ lcsLen xs ys :=
  lcsLenAux_ge (xs.length + ys.length) xs ys cs (Nat.le_refl _) h1 h2

theorem lcsLen_superadd [DecidableEq α] (x y u v : List α) :
    lcsLen x u + lcsLen y v ≤ lcsLen (x ++ y) (u ++ v) := by
  obtain ⟨c1, hc11, hc12, hc13⟩ := lcsLenAux_realizable (x.length + u.length) x u
  obtain ⟨c2, hc21, hc22, hc23⟩ := lcsLenAux_realizable (y.length + v.length) y v
  have happ : (c1 ++ c2).Sublist (x ++ y) := List.Sublist.append hc11 hc21
  have happ2 : (c1 ++ c2).Sublist (u ++ v) := List.Sublist.append hc12 hc22
  have hg := lcsLen_ge (x ++ y) (u ++ v) (c1 ++ c2) happ happ2
  simp only [List.length_append] at hg
  have e1 : lcsLen x u = lcsLenAux (x.length + u.length) x u := rfl
  have e2 : lcsLen y v = lcsLenAux (y.length + v.length) y v := rfl
  omega

theorem lcsLen_self_ge [DecidableEq α] (t : List α) : t.length ≤ lcsLen t t :=
  lcsLen_ge t t t (List.Sublist.refl t) (List.Sublist.refl t)

/-! ## Content of the returned match: equal spans -/

theorem elemEq_iff [DecidableEq α] (a b : List α) (i j : Nat) :
    elemEq a b i j = true ↔ ∃ x, a[i]? = some x ∧ b[j]? = some x := by
  unfold elemEq
  cases ha : a[i]? with
  | none => simp [ha]
  | some x =>
    cases hb : b[j]? with
    | none => simp [ha, hb]
    | some y =>
      simp only [ha, hb, decide_eq_true_eq]
      constructor
      · intro h
        subst h
        exact ⟨x, rfl, rfl⟩
      · rintro ⟨z, hz1, hz2⟩
        have hx : x = z := by injection hz1
        have hy : y = z := by injection hz2
        rw [hx, hy]

theorem runAt_content [DecidableEq α] (a b : List α) (pop : α → Bool)
    (alo ahi blo bhi : Nat) :
    ∀ i j t, t < runAt a b pop alo ahi blo bhi i j →
      ∃ x, a[i - t]? = some x ∧ b[j - t]? = some x := by
  intro i
  induction i with
  | zero =>
    intro j t ht
    unfold runAt at ht
    by_cases hm : matchOk a b pop alo ahi blo bhi 0 j = true
    · rw [if_pos hm] at ht
      have hteq : t = 0 := by omega
      subst hteq
      obtain ⟨-, -, -, -, x, hx1, hx2, -⟩ := (matchOk_iff a b pop alo ahi blo bhi 0 j).1 hm
      exact ⟨x, hx1, hx2⟩
    · rw [if_neg hm] at ht
      omega
  | succ i ih =>
    intro j t ht
    cases j with
    | zero =>
      unfold runAt at ht
      by_cases hm : matchOk a b pop alo ahi blo bhi (i + 1) 0 = true
      · rw [if_pos hm] at ht
        have hteq : t = 0 := by omega
        subst hteq
        obtain ⟨-, -, -, -, x, hx1, hx2, -⟩ :=
          (matchOk_iff a b pop alo ahi blo bhi (i + 1) 0).1 hm
        exact ⟨x, hx1, hx2⟩
      · rw [if_neg hm] at ht
        omega
    | succ j =>
      unfold runAt at ht
      by_cases hm : matchOk a b pop alo ahi blo bhi (i + 1) (j + 1) = true
      · rw [if_pos hm] at ht
        cases t with
        | zero =>
          obtain ⟨-, -, -, -, x, hx1, hx2, -⟩ :=
            (matchOk_iff a b pop alo ahi blo bhi (i + 1) (j + 1)).1 hm
          exact ⟨x, hx1, hx2⟩
        | succ t =>
          have ht' : t < runAt a b pop alo ahi blo bhi i j := by omega
          obtain ⟨x, hx1, hx2⟩ := ih j t ht'
          refine ⟨x, ?_, ?_⟩
          · rw [show i + 1 - (t + 1) = i - t from by omega]
            exact hx1
          · rw [show j + 1 - (t + 1) = j - t from by omega]
            exact hx2
      · rw [if_neg hm] at ht
        omega

/-- The span content property of a best triple. -/
def BestContent [DecidableEq α] (a b : List α) (best : Nat × Nat × Nat) : Prop :=
  ∀ t, t < best.2.2 → ∃ x, a[best.1 + t]? = some x ∧ b[best.2.1 + t]? = some x

theorem bestStep_content [DecidableEq α] (a b : List α) (pop : α → Bool)
    (alo ahi blo bhi i j : Nat) (best : Nat × Nat × Nat)
    (h : BestContent a b best) :
    BestContent a b (bestStep a b pop alo ahi blo bhi i best j) := by
  unfold bestStep
  by_cases hlt : best.2.2 < runAt a b pop alo ahi blo bhi i j
  · rw [if_pos hlt]
    intro t ht
    dsimp only at ht ⊢
    have hne : runAt a b pop alo ahi blo bhi i j ≠ 0 := by omega
    obtain ⟨-, -, hk1, hk2⟩ := runAt_facts a b pop alo ahi blo bhi i j hne
    obtain ⟨x, hx1, hx2⟩ := runAt_content a b pop alo ahi blo bhi i j
      (runAt a b pop alo ahi blo bhi i j - 1 - t) (by omega)
    refine ⟨x, ?_, ?_⟩
    · rw [show i + 1 - runAt a b pop alo ahi blo bhi i j + t =
        i - (runAt a b pop alo ahi blo bhi i j - 1 - t) from by omega]
      exact hx1
    · rw [show j + 1 - runAt a b pop alo ahi blo bhi i j + t =
        j - (runAt a b pop alo ahi blo bhi i j - 1 - t) from by omega]
      exact hx2
  · rw [if_neg hlt]
    exact h

theorem scanBest_content [DecidableEq α] (a b : List α) (pop : α → Bool)
    (alo ahi blo bhi : Nat) :
    BestContent a b (scanBest a b pop alo ahi blo bhi) := by
  unfold scanBest
  apply foldl_inv (P := BestContent a b)
  · intro s i hs
    unfold scanRow
    exact foldl_inv _ _ (fun s j hs => bestStep_content a b pop alo ahi blo bhi i j s hs) _ _ hs
  · intro t ht
    dsimp only at ht
    omega

theorem extendBack_content [DecidableEq α] (a b : List α) (alo blo : Nat) :
    ∀ i j k,
      (∀ t, t < k → ∃ x, a[i + t]? = some x ∧ b[j + t]? = some x) →
      ∀ t, t < (extendBack a b alo blo i j k).2.2 →
        ∃ x, a[(extendBack a b alo blo i j k).1 + t]? = some x ∧
          b[(extendBack a b alo blo i j k).2.1 + t]? = some x := by
  intro i
  induction i with
  | zero =>
    intro j k h
    dsimp only [extendBack]
    exact h
  | succ i ih =>
    intro j k h
    cases j with
    | zero =>
      dsimp only [extendBack]
      exact h
    | succ j =>
      rw [extendBack]
      by_cases hg : (decide (alo ≤ i) && decide (blo ≤ j) && elemEq a b i j) = true
      · rw [if_pos hg]
        apply ih j (k + 1)
        intro t ht
        cases t with
        | zero =>
          simp only [Bool.and_eq_true] at hg
          obtain ⟨x, hx1, hx2⟩ := (elemEq_iff a b i j).1 hg.2
          exact ⟨x, by simpa using hx1, by simpa using hx2⟩
        | succ t =>
          obtain ⟨x, hx1, hx2⟩ := h t (by omega)
          refine ⟨x, ?_, ?_⟩
          · rw [show i + (t + 1) = i + 1 + t from by omega]
            exact hx1
          · rw [show j + (t + 1) = j + 1 + t from by omega]
            exact hx2
      · rw [if_neg hg]
        exact h

theorem extendForwardAux_content [DecidableEq α] (a b : List α) (ahi bhi i j : Nat) :
    ∀ fuel k,
      (∀ t, t < k → ∃ x, a[i + t]? = some x ∧ b[j + t]? = some x) →
      ∀ t, t < extendForwardAux a b ahi bhi i j fuel k →
        ∃ x, a[i + t]? = some x ∧ b[j + t]? = some x := by
  intro fuel
  induction fuel with
  | zero =>
    intro k h t ht
    simp only [extendForwardAux] at ht
    exact h t ht
  | succ fuel ih =>
    intro k h t ht
    rw [extendForwardAux] at ht
    by_cases hg : (decide (i + k < ahi) && decide (j + k < bhi) &&
        elemEq a b (i + k) (j + k)) = true
    · rw [if_pos hg] at ht
      refine ih (k + 1) ?_ t ht
      intro u hu
      rcases Nat.lt_or_ge u k with hlt | hge
      · exact h u hlt
      · have huk : u = k := by omega
        subst huk
        simp only [Bool.and_eq_true] at hg
        exact (elemEq_iff a b (i + u) (j + u)).1 hg.2
    · rw [if_neg hg] at ht
      exact h t ht

theorem flm_content [DecidableEq α] (a b : List α) (pop : α → Bool)
    (alo ahi blo bhi : Nat) {mi mj mk : Nat}
    (hm : findLongestMatch a b pop alo ahi blo bhi = (mi, mj, mk)) :
    ∀ t, t < mk → ∃ x, a[mi + t]? = some x ∧ b[mj + t]? = some x := by
  have hsc := scanBest_content a b pop alo ahi blo bhi
  unfold findLongestMatch at hm
  dsimp only at hm
  set s := scanBest a b pop alo ahi blo bhi with hs
  have hbc := extendBack_content a b alo blo s.1 s.2.1 s.2.2 (fun t ht => hsc t ht)
  set t0 := extendBack a b alo blo s.1 s.2.1 s.2.2 with ht0
  have hfc := extendForwardAux_content a b ahi bhi t0.1 t0.2.1
    (ahi - (t0.1 + t0.2.2)) t0.2.2 (fun t ht => hbc t ht)
  rw [Prod.ext_iff, Prod.ext_iff] at hm
  dsimp only at hm
  obtain ⟨hm1, hm2, hm3⟩ := hm
  subst hm1
  subst hm2
  subst hm3
  exact hfc

/-! ## The matched total is bounded by the LCS length -/

def slice (l : List α) (lo hi : Nat) : List α :=
  (l.drop lo).take (hi - lo)

theorem slice_split (l : List α) (lo mid hi : Nat) (h1 : lo ≤ mid) (h2 : mid ≤ hi) :
    slice l lo hi = slice l lo mid ++ slice l mid hi := by
  unfold slice
  rw [show hi - lo = (mid - lo) + (hi - mid) from by omega]
  rw [List.take_add]
  congr 1
  rw [List.drop_drop]
  rw [show lo + (mid - lo) = mid from by omega]

theorem slice_getElem? (l : List α) (lo hi t : Nat) :
    (slice l lo hi)[t]? = if t < hi - lo then l[lo + t]? else none := by
  unfold slice
  rw [List.getElem?_take]
  by_cases ht : t < hi - lo
  · rw [if_pos ht, if_pos ht, List.getElem?_drop]
  · rw [if_neg ht, if_neg ht]

theorem middle_slice_eq [DecidableEq α] (a b : List α) (mi mj mk : Nat)
    (hcont : ∀ t, t < mk → ∃ x, a[mi + t]? = some x ∧ b[mj + t]? = some x) :
    slice a mi (mi + mk) = slice b mj (mj + mk) ∧
      (slice a mi (mi + mk)).length = mk := by
  constructor
  · apply List.ext_getElem?
    intro t
    rw [slice_getElem?, slice_getElem?]
    rw [show mi + mk - mi = mk from by omega, show mj + mk - mj = mk from by omega]
    by_cases ht : t < mk
    · rw [if_pos ht, if_pos ht]
      obtain ⟨x, hx1, hx2⟩ := hcont t ht
      rw [hx1, hx2]
    · rw [if_neg ht, if_neg ht]
  · unfold slice
    rw [List.length_take, List.length_drop]
    rw [show mi + mk - mi = mk from by omega]
    rcases Nat.eq_zero_or_pos mk with hz | hpos
    · simp [hz]
    · obtain ⟨x, hx1, -⟩ := hcont (mk - 1) (by omega)
      have hlen : mi + (mk - 1) < a.length := by
        by_contra hcon
        rw [List.getElem?_eq_none (by omega)] at hx1
        exact Option.noConfusion hx1
      omega

theorem sumK_append (l1 l2 : List (Nat × Nat × Nat)) :
    sumK (l1 ++ l2) = sumK l1 + sumK l2 := by
  unfold sumK
  rw [List.map_append, List.sum_append]

theorem sumK_cons (t : Nat × Nat × Nat) (l : List (Nat × Nat × Nat)) :
    sumK (t :: l) = t.2.2 + sumK l := by
  unfold sumK
  rw [List.map_cons, List.sum_cons]

theorem mergeAdjacent_sumK :
    ∀ (l : List (Nat × Nat × Nat)) (i j k : Nat),
      sumK (mergeAdjacent (i, j, k) l) = k + sumK l := by
  intro l
  induction l with
  | nil =>
    intro i j k
    rw [mergeAdjacent]
    by_cases hk : k ≠ 0
    · rw [if_pos hk, sumK_cons]
    · rw [if_neg hk]
      simp only [sumK, List.map_nil, List.sum_nil]
      omega
  | cons hd rest ih =>
    intro i j k
    obtain ⟨i2, j2, k2⟩ := hd
    rw [mergeAdjacent]
    by_cases hadj : i + k = i2 ∧ j + k = j2
    · rw [if_pos hadj, ih, sumK_cons]
      dsimp only
      omega
    · rw [if_neg hadj]
      by_cases hk : k ≠ 0
      · rw [if_pos hk, sumK_cons, ih, sumK_cons]
      · rw [if_neg hk, ih, sumK_cons]
        dsimp only
        omega

theorem matchingBlocksAux_lcs [DecidableEq α] (a b : List α) (pop : α → Bool) :
    ∀ fuel alo ahi blo bhi, alo ≤ ahi → blo ≤ bhi →
      sumK (matchingBlocksAux a b pop fuel alo ahi blo bhi) ≤
        lcsLen (slice a alo ahi) (slice b blo bhi) := by
  intro fuel
  induction fuel with
  | zero =>
    intro alo ahi blo bhi _ _
    simp [matchingBlocksAux, sumK]
  | succ fuel ih =>
    intro alo ahi blo bhi ha hb
    rw [matchingBlocksAux]
    rcases hmm : findLongestMatch a b pop alo ahi blo bhi with ⟨mi, mj, mk⟩
    obtain ⟨f1, f2, f3, f4⟩ := flm_bounds a b pop alo ahi blo bhi ha hb hmm
    have hcont := flm_content a b pop alo ahi blo bhi hmm
    by_cases hk : 0 < mk
    · simp only [hk, if_true]
      rw [sumK_append, sumK_cons]
      dsimp only
      obtain ⟨hmid_eq, hmid_len⟩ := middle_slice_eq a b mi mj mk hcont
      have hL : sumK (if alo < mi ∧ blo < mj then
          matchingBlocksAux a b pop fuel alo mi blo mj else []) ≤
          lcsLen (slice a alo mi) (slice b blo mj) := by
        by_cases hg : alo < mi ∧ blo < mj
        · rw [if_pos hg]
          exact ih alo mi blo mj (Nat.le_of_lt hg.1) (Nat.le_of_lt hg.2)
        · rw [if_neg hg]
          simp [sumK]
      have hR : sumK (if mi + mk < ahi ∧ mj + mk < bhi then
          matchingBlocksAux a b pop fuel (mi + mk) ahi (mj + mk) bhi else []) ≤
          lcsLen (slice a (mi + mk) ahi) (slice b (mj + mk) bhi) := by
        by_cases hg : mi + mk < ahi ∧ mj + mk < bhi
        · rw [if_pos hg]
          exact ih (mi + mk) ahi (mj + mk) bhi (Nat.le_of_lt hg.1) (Nat.le_of_lt hg.2)
        · rw [if_neg hg]
          simp [sumK]
      have hM : mk ≤ lcsLen (slice a mi (mi + mk)) (slice b mj (mj + mk)) := by
        rw [← hmid_eq]
        have hself := lcsLen_self_ge (slice a mi (mi + mk))
        omega
      have hsplit : lcsLen (slice a alo mi) (slice b blo mj) +
          (lcsLen (slice a mi (mi + mk)) (slice b mj (mj + mk)) +
            lcsLen (slice a (mi + mk) ahi) (slice b (mj + mk) bhi)) ≤
          lcsLen (slice a alo ahi) (slice b blo bhi) := by
        rw [slice_split a alo mi ahi f1 (by omega)]
        rw [slice_split a mi (mi + mk) ahi (by omega) f3]
        rw [slice_split b blo mj bhi f2 (by omega)]
        rw [slice_split b mj (mj + mk) bhi (by omega) f4]
        refine Nat.le_trans ?_ (lcsLen_superadd _ _ _ _)
        have := lcsLen_superadd (slice a mi (mi + mk)) (slice a (mi + mk) ahi)
          (slice b mj (mj + mk)) (slice b (mj + mk) bhi)
        omega
      omega
    · simp only [hk, if_false]
      simp [sumK]

theorem matchingBlocks_lcs [DecidableEq α] (a b : List α) (pop : α → Bool) :
    sumK (matchingBlocks a b pop) ≤ lcsLen a b := by
  have h := matchingBlocksAux_lcs a b pop (a.length + b.length + 1) 0 a.length 0 b.length
    (Nat.zero_le _) (Nat.zero_le _)
  unfold matchingBlocks
  have hsa : slice a 0 a.length = a := by
    unfold slice
    simp
  have hsb : slice b 0 b.length = b := by
    unfold slice
    simp
  rw [hsa, hsb] at h
  exact h

theorem computeDiffTokens_counts [DecidableEq α] (prev curr : List α) (h : prev ≠ []) :
    (computeDiffTokens prev curr).1 + sumK (matchingBlocks prev curr (isPopular curr)) =
        curr.length ∧
      (computeDiffTokens prev curr).2 + sumK (matchingBlocks prev curr (isPopular curr)) =
        prev.length := by
  unfold computeDiffTokens
  rw [if_neg h]
  unfold diffCounts getOpcodes
  have hchain := getMatchingBlocks_chain prev curr (isPopular curr)
  have hcount := diffCounts_opcodesAux (getMatchingBlocks prev curr (isPopular curr))
    0 0 prev.length curr.length 0 0 hchain
  rw [getMatchingBlocks_endCursor] at hcount
  dsimp only at hcount
  have hsm : sumK (getMatchingBlocks prev curr (isPopular curr)) =
      sumK (matchingBlocks prev curr (isPopular curr)) := by
    unfold getMatchingBlocks
    rw [sumK_append, mergeAdjacent_sumK]
    simp [sumK]
  rw [hsm] at hcount
  omega

/-- C3 as stated is false on the code: on previous tokens `a b a` and
current tokens `b c a` the matcher reports 2 added and 2 deleted (total 4),
while the LCS-minimal total of insertions and deletions is 2. -/
theorem claim_C3_counterexample :
    (["a", "b", "a"] : List String) ≠ [] ∧
    computeDiffTokens ["a", "b", "a"] ["b", "c", "a"] = (2, 2) ∧
    minEditsTokens ["a", "b", "a"] ["b", "c", "a"] = 2 ∧
    (computeDiffTokens ["a", "b", "a"] ["b", "c", "a"]).1 +
        (computeDiffTokens ["a", "b", "a"] ["b", "c", "a"]).2 ≠
      minEditsTokens ["a", "b", "a"] ["b", "c", "a"] := by
  refine ⟨by decide, by decide, by decide, by decide⟩

/-- C3 amended: for nonempty previous the differ returns non-negative counts
whose total is at least (not exactly) the minimal LCS-alignment total of
insertions and deletions; the matcher aligns along a common subsequence that
need not be longest. -/
theorem claim_C3_amended (prev curr : List String) (h : prev ≠ []) :
    0 ≤ ((computeDiffTokens prev curr).1 : Int) ∧
    0 ≤ ((computeDiffTokens prev curr).2 : Int) ∧
    minEditsTokens prev curr ≤
      (computeDiffTokens prev curr).1 + (computeDiffTokens prev curr).2 := by
  refine ⟨Int.ofNat_nonneg _, Int.ofNat_nonneg _, ?_⟩
  obtain ⟨h1, h2⟩ := computeDiffTokens_counts prev curr h
  have hlcs := matchingBlocks_lcs prev curr (isPopular curr)
  unfold minEditsTokens
  omega

theorem claim_C3_amended_witness :
    (["x", "q"] : List String) ≠ [] ∧
    (0 ≤ ((computeDiffTokens ["x", "q"] ["x", "y"]).1 : Int) ∧
      0 ≤ ((computeDiffTokens ["x", "q"] ["x", "y"]).2 : Int) ∧
      minEditsTokens ["x", "q"] ["x", "y"] ≤
        (computeDiffTokens ["x", "q"] ["x", "y"]).1 +
          (computeDiffTokens ["x", "q"] ["x", "y"]).2) :=
  ⟨by decide, claim_C3_amended ["x", "q"] ["x", "y"] (by decide)⟩

/-! # Part 2: the sync pipeline

Data model of src/models.py (dates and timestamps as naturals, net deltas as
integers), the per-document step of `process_folder` (src/google_docs.py
lines 173-250), the paginated folder listing `list_drive_files`, and the
commit/rollback frame of `main`.  Provider responses (revision id, exported
text, listing pages) and the relational failure points are explicit inputs;
the traversal is linearized as its sequence of document syncs. -/

structure Doc where
  id : String
  name : String
  folder_id : String
  total_words : Nat
  last_synced : Nat
  last_revision_id : Option String
deriving DecidableEq, Repr

structure SnapRow where
  document_id : String
  date : Nat
  total_words : Nat
  net_added : Int
deriving DecidableEq, Repr

structure EventRow where
  document_id : String
  revision_id : Option String
  timestamp : Nat
  words_added : Nat
  words_deleted : Nat
  net_change : Int
deriving DecidableEq, Repr

structure DB where
  documents : List Doc
  snapshots : List SnapRow
  events : List EventRow
deriving DecidableEq, Repr

/-- The snapshot directory: one cached text blob per document id. -/
abbrev Cache := List (String × String)

def snapKey (docId : String) (d : Nat) (r : SnapRow) : Bool :=
  r.document_id == docId && r.date == d

/-- db.query(DailySnapshot).filter_by(document_id=..., date=...).first() -/
def findSnapshot (snaps : List SnapRow) (docId : String) (d : Nat) : Option SnapRow :=
  snaps.find? (snapKey docId d)

/-- In-place mutation of the row returned by .first(). -/
def updateFirst (p : SnapRow → Bool) (f : SnapRow → SnapRow) :
    List SnapRow → List SnapRow
  | [] => []
  | r :: rest => if p r then f r :: rest else r :: updateFirst p f rest

/-- Lines 228-240: create the day's row if absent, else accumulate the net
delta and overwrite the total. -/
def upsertSnapshot (snaps : List SnapRow) (docId : String) (d : Nat)
    (currWords : Nat) (net : Int) : List SnapRow :=
  match findSnapshot snaps docId d with
  | none => snaps ++ [⟨docId, d, currWords, net⟩]
  | some _ =>
    updateFirst (snapKey docId d)
      (fun r => { r with net_added := r.net_added + net, total_words := currWords }) snaps

/-- Python `if doc.last_revision_id and current_rev_id == doc.last_revision_id`:
a None marker and an empty-string marker are both falsy. -/
def fastPathTaken (doc : Doc) (rid : Option String) : Bool :=
  (match doc.last_revision_id with
   | some s => s != ""
   | none => false) && rid == doc.last_revision_id

/-- Lines 184-250 after the name/folder reconciliation: the revision gate and
the two sync paths for one document.  Returns the updated relational rows,
the updated document row, the word-count contribution, and the snapshot-cache
write (none on the fast path). -/
def syncDocument (db : DB) (doc : Doc) (rid : Option String)
    (currText prevText : String) (today now : Nat) :
    DB × Doc × Nat × Option String :=
  if fastPathTaken doc rid then
    -- `curr_words = doc.total_words or 0` is the identity on Nat
    let currWords := doc.total_words
    let db' :=
      match findSnapshot db.snapshots doc.id today with
      | some _ => db
      | none =>
        { db with snapshots := db.snapshots ++ [⟨doc.id, today, currWords, 0⟩] }
    (db', { doc with last_synced := now }, currWords, none)
  else
    let currWords := (tokenize currText).length
    let counts := computeDiff prevText currText
    let net : Int := (counts.1 : Int) - (counts.2 : Int)
    let ev : EventRow := ⟨doc.id, rid, now, counts.1, counts.2, net⟩
    let db' := { db with
      events := db.events ++ [ev],
      snapshots := upsertSnapshot db.snapshots doc.id today currWords net }
    (db',
      { doc with total_words := currWords, last_revision_id := rid, last_synced := now },
      currWords, some currText)

/-- One remote child document of a folder together with the provider
responses consumed while processing it, and whether the relational store
raises StoreError during this document's processing (at the snapshot query,
before the cache write). -/
structure ItemInput where
  id : String
  name : String
  rid : Option String
  text : String
  storeFails : Bool
deriving DecidableEq, Repr

def loadPrev (cache : Cache) (docId : String) : String :=
  match cache.find? (fun e => e.1 == docId) with
  | some e => e.2
  | none => ""

def savePrev (cache : Cache) (docId : String) (text : String) : Cache :=
  match cache.find? (fun e => e.1 == docId) with
  | some _ => cache.map (fun e => if e.1 == docId then (e.1, text) else e)
  | none => cache ++ [(docId, text)]

def findDoc (docs : List Doc) (docId : String) : Option Doc :=
  docs.find? (fun d => d.id == docId)

def putDoc (docs : List Doc) (doc : Doc) : List Doc :=
  match findDoc docs doc.id with
  | some _ => docs.map (fun d => if d.id == doc.id then doc else d)
  | none => docs ++ [doc]

/-- Lines 173-250: document lookup or creation, rename/move reconciliation,
then the sync step; the session state after processing one document. -/
def processDocItem (db : DB) (cache : Cache) (folderId : String) (it : ItemInput)
    (today now : Nat) : DB × Cache × Nat :=
  let doc0 : Doc :=
    match findDoc db.documents it.id with
    | none => ⟨it.id, it.name, folderId, 0, now, none⟩
    | some d => { d with name := it.name, folder_id := folderId }
  let r := syncDocument db doc0 it.rid it.text (loadPrev cache it.id) today now
  ({ r.1 with documents := putDoc r.1.documents r.2.1 },
   match r.2.2.2 with
   | none => cache
   | some t => savePrev cache it.id t,
   r.2.2.1)

/-- The traversal as its sequence of document syncs inside one session; a
StoreError on an item aborts the traversal there, with the session's
relational writes still uncommitted and the cache as written so far. -/
def runItems (folderId : String) (today now : Nat) :
    List ItemInput → DB → Cache → Cache × Option (DB × Nat)
  | [], db, c => (c, some (db, 0))
  | it :: rest, db, c =>
    if it.storeFails then (c, none)
    else
      let r := processDocItem db c folderId it today now
      match runItems folderId today now rest r.1 r.2.1 with
      | (cf, some (dbf, wf)) => (cf, some (dbf, r.2.2 + wf))
      | (cf, none) => (cf, none)

/-- Failure-free reference traversal: what a committed run contains. -/
def runAll (folderId : String) (today now : Nat) :
    List ItemInput → DB → Cache → DB × Cache × Nat
  | [], db, c => (db, c, 0)
  | it :: rest, db, c =>
    let r := processDocItem db c folderId it today now
    let rf := runAll folderId today now rest r.1 r.2.1
    (rf.1, rf.2.1, r.2.2 + rf.2.2)

/-- main(): run the traversal in a session over the committed state `db`,
commit on success, roll the relational store back on failure; snapshot-cache
writes are plain file writes and survive either way. -/
def mainModel (folderId : String) (today now : Nat) (items : List ItemInput)
    (db : DB) (c : Cache) : DB × Cache × Option Nat :=
  match runItems folderId today now items db c with
  | (cf, some (dbf, w)) => (dbf, cf, some w)
  | (cf, none) => (db, cf, none)

/-- One response page of files().list: the returned items and whether a
nextPageToken was present; `err` is a raised provider error. -/
inductive PageFetch (α : Type _) where
  | ok (items : List α) (hasNext : Bool)
  | err
deriving DecidableEq, Repr

/-- list_drive_files: drain pages into `items`, stopping at the last page or
at a caught provider error (log and break, returning what was gathered). -/
def listDriveFilesAux : List (PageFetch α) → List α → List α
  | [], acc => acc
  | PageFetch.err :: _, acc => acc
  | PageFetch.ok its hasNext :: rest, acc =>
    if hasNext then listDriveFilesAux rest (acc ++ its) else acc ++ its

def listDriveFiles (pages : List (PageFetch α)) : List α :=
  listDriveFilesAux pages []

/-- Whether the listing loop reaches a raised provider error. -/
def hitsListingError : List (PageFetch α) → Bool
  | [] => false
  | PageFetch.err :: _ => true
  | PageFetch.ok _ hasNext :: rest => hasNext && hitsListingError rest

/-- Modelled from the spec: the successfully fetched pages, cut off at the
provider error ("yields an empty child list" describes what an error on the
first page leaves behind). -/
def drainedPages : List (PageFetch α) → List (List α)
  | [] => []
  | PageFetch.err :: _ => []
  | PageFetch.ok its hasNext :: rest =>
    its :: (if hasNext then drainedPages rest else [])

/-- Sibling folders processed in order, each draining its own listing pages:
process_folder linearized one level. -/
def syncFolders (folderId : String) (today now : Nat) :
    List (List (PageFetch ItemInput)) → DB → Cache → Cache × Option (DB × Nat)
  | [], db, c => (c, some (db, 0))
  | f :: rest, db, c =>
    match runItems folderId today now (listDriveFiles f) db c with
    | (cf, some (dbf, w)) =>
      match syncFolders folderId today now rest dbf cf with
      | (cg, some (dbg, wg)) => (cg, some (dbg, w + wg))
      | (cg, none) => (cg, none)
    | (cf, none) => (cf, none)

/-! ## C1: DailySnapshot upsert semantics -/

theorem find?_updateFirst (p : SnapRow → Bool) (f : SnapRow → SnapRow)
    (hf : ∀ r, p r = true → p (f r) = true) :
    ∀ l : List SnapRow, (updateFirst p f l).find? p = (l.find? p).map f := by
  intro l
  induction l with
  | nil => simp [updateFirst]
  | cons r rest ih =>
    by_cases hp : p r = true
    · rw [updateFirst, if_pos hp]
      rw [List.find?_cons_of_pos _ (hf r hp), List.find?_cons_of_pos _ hp]
      rfl
    · rw [updateFirst, if_neg hp]
      rw [List.find?_cons_of_neg _ hp, List.find?_cons_of_neg _ hp]
      exact ih

theorem snapKey_fields {docId : String} {d : Nat} {r : SnapRow}
    (h : snapKey docId d r = true) : r.document_id = docId ∧ r.date = d := by
  unfold snapKey at h
  simp only [Bool.and_eq_true, beq_iff_eq] at h
  exact h

/-- C1: the aggregation upsert creates the day's row with the current total
and the net delta when absent, and otherwise accumulates the net additively
while overwriting the total; applying it twice with delta (5, 2), that is
net 3, on an initially empty table yields net_added 3 and then 6, with
total_words from the second call. -/
theorem claim_C1_snapshot_upsert (snaps : List SnapRow) (docId : String)
    (d currWords : Nat) (net : Int) :
    (findSnapshot snaps docId d = none →
      upsertSnapshot snaps docId d currWords net = snaps ++ [⟨docId, d, currWords, net⟩]) ∧
    (∀ r, findSnapshot snaps docId d = some r →
      findSnapshot (upsertSnapshot snaps docId d currWords net) docId d =
        some ⟨docId, d, currWords, r.net_added + net⟩) ∧
    (upsertSnapshot [] "doc" 0 5 3 = [⟨"doc", 0, 5, 3⟩] ∧
      upsertSnapshot [⟨"doc", 0, 5, 3⟩] "doc" 0 8 3 = [⟨"doc", 0, 8, 6⟩]) := by
  refine ⟨?_, ?_, by decide, by decide⟩
  · intro h
    unfold upsertSnapshot
    rw [h]
  · intro r h
    have hf : ∀ s, snapKey docId d s = true →
        snapKey docId d { s with net_added := s.net_added + net, total_words := currWords } = true := by
      intro s hs
      unfold snapKey at hs ⊢
      simpa using hs
    unfold findSnapshot at h
    unfold upsertSnapshot findSnapshot
    simp only [h]
    rw [find?_updateFirst (snapKey docId d) _ hf snaps, h]
    obtain ⟨h1, h2⟩ := snapKey_fields (List.find?_some h)
    subst h1
    subst h2
    rfl

theorem claim_C1_snapshot_upsert_witness :
    (upsertSnapshot [] "a" 1 4 2 = [⟨"a", 1, 4, 2⟩]) ∧
    (findSnapshot (upsertSnapshot [⟨"a", 1, 4, 2⟩] "a" 1 9 5) "a" 1 =
      some ⟨"a", 1, 9, 7⟩) :=
  ⟨(claim_C1_snapshot_upsert [] "a" 1 4 2).1 (by decide),
   (claim_C1_snapshot_upsert [⟨"a", 1, 4, 2⟩] "a" 1 9 5).2.1 ⟨"a", 1, 4, 2⟩ (by decide)⟩

/-! ## C2: the revision gate decision -/

/-- C2 as stated is false on the code: a persisted marker equal to the empty
string is present and can equal the fetched marker, yet Python
`if doc.last_revision_id` is falsy on it, so the code performs a full sync
(emitting a RevisionEvent) instead of the skip the claim requires. -/
theorem claim_C2_counterexample :
    (Doc.mk "d1" "Doc" "f1" 7 0 (some "")).last_revision_id.isSome = true ∧
    some "" = (Doc.mk "d1" "Doc" "f1" 7 0 (some "")).last_revision_id ∧
    fastPathTaken (Doc.mk "d1" "Doc" "f1" 7 0 (some "")) (some "") = false ∧
    (syncDocument (DB.mk [] [] []) (Doc.mk "d1" "Doc" "f1" 7 0 (some ""))
        (some "") "" "" 0 0).1.events.length = 1 := by
  refine ⟨by decide, by decide, by decide, by decide⟩

/-- C2 amended: the skip (fast path) is taken iff the persisted marker is
present, non-empty, and equal to the fetched marker; in every other case,
including an unavailable fetched marker, a full sync runs, observable as the
fast path appending no RevisionEvent and the full path appending exactly
one. -/
theorem claim_C2_amended (db : DB) (doc : Doc) (rid : Option String)
    (currText prevText : String) (today now : Nat) :
    (fastPathTaken doc rid = true ↔
      ∃ s, doc.last_revision_id = some s ∧ s ≠ "" ∧ rid = some s) ∧
    (fastPathTaken doc rid = true →
      (syncDocument db doc rid currText prevText today now).1.events = db.events) ∧
    (fastPathTaken doc rid = false →
      (syncDocument db doc rid currText prevText today now).1.events.length =
        db.events.length + 1) := by
  refine ⟨?_, ?_, ?_⟩
  · unfold fastPathTaken
    cases hlast : doc.last_revision_id with
    | none => simp
    | some s =>
      simp only [Bool.and_eq_true, bne_iff_ne, beq_iff_eq]
      constructor
      · rintro ⟨h1, h2⟩
        exact ⟨s, rfl, h1, h2⟩
      · rintro ⟨z, hz1, hz2, hz3⟩
        have hsz : s = z := by injection hz1
        subst hsz
        exact ⟨hz2, hz3⟩
  · intro h
    unfold syncDocument
    rw [if_pos h]
    cases hfind : findSnapshot db.snapshots doc.id today <;> simp [hfind]
  · intro h
    unfold syncDocument
    rw [if_neg (by rw [h]; exact Bool.false_ne_true)]
    simp

theorem claim_C2_amended_witness :
    ((syncDocument (DB.mk [] [] []) (Doc.mk "d" "D" "f" 3 0 (some "r"))
        (some "r") "" "" 0 1).1.events = (DB.mk [] [] []).events) ∧
    ((syncDocument (DB.mk [] [] []) (Doc.mk "d" "D" "f" 3 0 none)
        (some "r") "" "" 0 1).1.events.length = (DB.mk [] [] []).events.length + 1) :=
  ⟨(claim_C2_amended (DB.mk [] [] []) (Doc.mk "d" "D" "f" 3 0 (some "r"))
      (some "r") "" "" 0 1).2.1 (by decide),
   (claim_C2_amended (DB.mk [] [] []) (Doc.mk "d" "D" "f" 3 0 none)
      (some "r") "" "" 0 1).2.2 (by decide)⟩

/-! ## C6: the fast-path frame -/

/-- C6: on every fast-path (unchanged-marker) sync, no RevisionEvent is
appended; a missing same-day DailySnapshot row is created with net_added 0
and the document's cached total; an existing same-day row (and the whole
snapshot table) is left unchanged; the document record changes only in its
last-synchronized timestamp; and no snapshot-cache write happens. -/
theorem claim_C6_fast_path_frame (db : DB) (doc : Doc) (rid : Option String)
    (currText prevText : String) (today now : Nat)
    (h : fastPathTaken doc rid = true) :
    (syncDocument db doc rid currText prevText today now).1.events = db.events ∧
    (findSnapshot db.snapshots doc.id today = none →
      (syncDocument db doc rid currText prevText today now).1.snapshots =
        db.snapshots ++ [⟨doc.id, today, doc.total_words, 0⟩]) ∧
    ((findSnapshot db.snapshots doc.id today).isSome = true →
      (syncDocument db doc rid currText prevText today now).1.snapshots =
        db.snapshots) ∧
    (syncDocument db doc rid currText prevText today now).2.1 =
      { doc with last_synced := now } ∧
    (syncDocument db doc rid currText prevText today now).2.2.2 = none := by
  unfold syncDocument
  rw [if_pos h]
  cases hfind : findSnapshot db.snapshots doc.id today with
  | none =>
    refine ⟨rfl, fun _ => rfl, ?_, rfl, rfl⟩
    intro hs
    simp at hs
  | some r =>
    refine ⟨rfl, ?_, fun _ => rfl, rfl, rfl⟩
    intro hs
    exact Option.noConfusion hs

theorem claim_C6_fast_path_frame_witness :
    ((syncDocument (DB.mk [] [] []) (Doc.mk "d" "D" "f" 3 0 (some "r"))
        (some "r") "t u" "t" 5 9).1.events = (DB.mk [] [] []).events ∧
      (findSnapshot (DB.mk [] [] []).snapshots "d" 5 = none →
        (syncDocument (DB.mk [] [] []) (Doc.mk "d" "D" "f" 3 0 (some "r"))
            (some "r") "t u" "t" 5 9).1.snapshots =
          (DB.mk [] [] []).snapshots ++ [⟨"d", 5, 3, 0⟩]) ∧
      ((findSnapshot (DB.mk [] [] []).snapshots "d" 5).isSome = true →
        (syncDocument (DB.mk [] [] []) (Doc.mk "d" "D" "f" 3 0 (some "r"))
            (some "r") "t u" "t" 5 9).1.snapshots = (DB.mk [] [] []).snapshots) ∧
      (syncDocument (DB.mk [] [] []) (Doc.mk "d" "D" "f" 3 0 (some "r"))
          (some "r") "t u" "t" 5 9).2.1 =
        { Doc.mk "d" "D" "f" 3 0 (some "r") with last_synced := 9 } ∧
      (syncDocument (DB.mk [] [] []) (Doc.mk "d" "D" "f" 3 0 (some "r"))
          (some "r") "t u" "t" 5 9).2.2.2 = none) :=
  claim_C6_fast_path_frame (DB.mk [] [] []) (Doc.mk "d" "D" "f" 3 0 (some "r"))
    (some "r") "t u" "t" 5 9 (by decide)

/-! ## C7: at most one snapshot row per (document, date) -/

def AtMostOnePerDay (snaps : List SnapRow) : Prop :=
  snaps.Pairwise (fun r s => ¬(r.document_id = s.document_id ∧ r.date = s.date))

theorem mem_updateFirst (p : SnapRow → Bool) (f : SnapRow → SnapRow) :
    ∀ (l : List SnapRow) (x : SnapRow), x ∈ updateFirst p f l →
      ∃ y, y ∈ l ∧ (x = y ∨ x = f y) := by
  intro l
  induction l with
  | nil =>
    intro x hx
    simp [updateFirst] at hx
  | cons r rest ih =>
    intro x hx
    rw [updateFirst] at hx
    by_cases hp : p r = true
    · rw [if_pos hp] at hx
      rcases List.mem_cons.1 hx with h | h
      · exact ⟨r, List.mem_cons_self r rest, Or.inr h⟩
      · exact ⟨x, List.mem_cons_of_mem r h, Or.inl rfl⟩
    · rw [if_neg hp] at hx
      rcases List.mem_cons.1 hx with h | h
      · exact ⟨r, List.mem_cons_self r rest, Or.inl h⟩
      · obtain ⟨y, hy1, hy2⟩ := ih x h
        exact ⟨y, List.mem_cons_of_mem r hy1, hy2⟩

theorem updateFirst_atMostOne (p : SnapRow → Bool) (f : SnapRow → SnapRow)
    (hf1 : ∀ r, (f r).document_id = r.document_id)
    (hf2 : ∀ r, (f r).date = r.date) :
    ∀ l, AtMostOnePerDay l → AtMostOnePerDay (updateFirst p f l) := by
  intro l
  induction l with
  | nil =>
    intro h
    exact h
  | cons r rest ih =>
    intro h
    unfold AtMostOnePerDay at h ⊢
    rw [List.pairwise_cons] at h
    obtain ⟨hr, hrest⟩ := h
    rw [updateFirst]
    by_cases hp : p r = true
    · rw [if_pos hp]
      rw [List.pairwise_cons]
      refine ⟨?_, hrest⟩
      intro s hs
      rw [hf1, hf2]
      exact hr s hs
    · rw [if_neg hp]
      rw [List.pairwise_cons]
      refine ⟨?_, ih hrest⟩
      intro s hs
      obtain ⟨y, hy1, hy2⟩ := mem_updateFirst p f rest s hs
      rcases hy2 with hy2 | hy2
      · rw [hy2]
        exact hr y hy1
      · rw [hy2, hf1, hf2]
        exact hr y hy1

theorem snapshot_append_atMostOne (snaps : List SnapRow) (docId : String) (d : Nat)
    (tw : Nat) (na : Int) (hnone : findSnapshot snaps docId d = none)
    (h : AtMostOnePerDay snaps) :
    AtMostOnePerDay (snaps ++ [⟨docId, d, tw, na⟩]) := by
  unfold AtMostOnePerDay at h ⊢
  rw [List.pairwise_append]
  refine ⟨h, List.pairwise_singleton _ _, ?_⟩
  intro a ha b hb
  rw [List.mem_singleton] at hb
  subst hb
  have hnk := List.find?_eq_none.1 hnone a ha
  simp only [snapKey, Bool.and_eq_true, beq_iff_eq] at hnk
  intro hcon
  exact hnk ⟨hcon.1, hcon.2⟩

theorem syncDocument_atMostOne (db : DB) (doc : Doc) (rid : Option String)
    (currText prevText : String) (today now : Nat)
    (h : AtMostOnePerDay db.snapshots) :
    AtMostOnePerDay (syncDocument db doc rid currText prevText today now).1.snapshots := by
  unfold syncDocument
  by_cases hfast : fastPathTaken doc rid = true
  · rw [if_pos hfast]
    cases hfind : findSnapshot db.snapshots doc.id today with
    | some r => exact h
    | none =>
      exact snapshot_append_atMostOne db.snapshots doc.id today doc.total_words 0 hfind h
  · rw [if_neg hfast]
    dsimp only
    unfold upsertSnapshot
    cases hfind : findSnapshot db.snapshots doc.id today with
    | none =>
      exact snapshot_append_atMostOne db.snapshots doc.id today
        (tokenize currText).length _ hfind h
    | some r =>
      exact updateFirst_atMostOne (snapKey doc.id today)
        (fun s => { s with
          net_added := s.net_added +
            (((computeDiff prevText currText).1 : Int) -
              ((computeDiff prevText currText).2 : Int)),
          total_words := (tokenize currText).length })
        (fun s => rfl) (fun s => rfl) db.snapshots h

/-- C7: every step of the sync pipeline preserves the invariant of at most
one DailySnapshot row per (document, date): both the fast path and the full
path query for the existing same-day row before creating one. -/
theorem claim_C7_snapshot_unique (db : DB) (cache : Cache) (folderId : String)
    (it : ItemInput) (today now : Nat) (h : AtMostOnePerDay db.snapshots) :
    AtMostOnePerDay (processDocItem db cache folderId it today now).1.snapshots := by
  unfold processDocItem
  exact syncDocument_atMostOne db _ it.rid it.text (loadPrev cache it.id) today now h

theorem claim_C7_snapshot_unique_witness :
    AtMostOnePerDay
      (processDocItem (DB.mk [] [] []) [] "f" (ItemInput.mk "d" "D" none "a b" false)
        0 0).1.snapshots :=
  claim_C7_snapshot_unique (DB.mk [] [] []) [] "f" (ItemInput.mk "d" "D" none "a b" false)
    0 0 List.Pairwise.nil

/-! ## C4: run-level atomicity -/

theorem runItems_no_fail (folderId : String) (today now : Nat) :
    ∀ (items : List ItemInput) (db : DB) (c : Cache),
      (∀ it ∈ items, it.storeFails = false) →
      runItems folderId today now items db c =
        ((runAll folderId today now items db c).2.1,
          some ((runAll folderId today now items db c).1,
            (runAll folderId today now items db c).2.2)) := by
  intro items
  induction items with
  | nil =>
    intro db c _
    rfl
  | cons it rest ih =>
    intro db c h
    have hit : it.storeFails = false := h it (List.mem_cons_self it rest)
    rw [runItems, runAll]
    rw [if_neg (by rw [hit]; exact Bool.false_ne_true)]
    dsimp only
    rw [ih _ _ (fun x hx => h x (List.mem_cons_of_mem it hx))]

theorem runItems_fail (folderId : String) (today now : Nat) :
    ∀ (items : List ItemInput) (db : DB) (c : Cache),
      (∃ it ∈ items, it.storeFails = true) →
      runItems folderId today now items db c =
        ((runAll folderId today now (items.takeWhile (fun it => !it.storeFails)) db c).2.1,
          none) := by
  intro items
  induction items with
  | nil =>
    intro db c h
    obtain ⟨it, hmem, -⟩ := h
    simp at hmem
  | cons it rest ih =>
    intro db c h
    rw [runItems]
    by_cases hf : it.storeFails = true
    · rw [if_pos hf]
      have htw : (it :: rest).takeWhile (fun x => !x.storeFails) = [] := by
        simp [List.takeWhile_cons, hf]
      rw [htw]
      rfl
    · have hff : it.storeFails = false := by
        revert hf
        cases it.storeFails <;> simp
      rw [if_neg hf]
      dsimp only
      have hrest : ∃ x ∈ rest, x.storeFails = true := by
        obtain ⟨x, hx1, hx2⟩ := h
        rcases List.mem_cons.1 hx1 with hx1 | hx1
        · subst hx1
          rw [hff] at hx2
          exact absurd hx2 Bool.false_ne_true
        · exact ⟨x, hx1, hx2⟩
      rw [ih _ _ hrest]
      have htw : (it :: rest).takeWhile (fun x => !x.storeFails) =
          it :: rest.takeWhile (fun x => !x.storeFails) := by
        simp [List.takeWhile_cons, hff]
      rw [htw, runAll]

/-- C4: a run either completes the traversal and commits every relational
mutation of the run, or, on a store failure at any document, leaves the
committed relational state exactly as before the run; the snapshot-cache
writes made before the failure point are kept either way. -/
theorem claim_C4_run_atomicity (folderId : String) (today now : Nat)
    (items : List ItemInput) (db : DB) (c : Cache) :
    ((∀ it ∈ items, it.storeFails = false) →
      mainModel folderId today now items db c =
        ((runAll folderId today now items db c).1,
          (runAll folderId today now items db c).2.1,
          some (runAll folderId today now items db c).2.2)) ∧
    ((∃ it ∈ items, it.storeFails = true) →
      (mainModel folderId today now items db c).1 = db ∧
      (mainModel folderId today now items db c).2.1 =
        (runAll folderId today now (items.takeWhile (fun it => !it.storeFails)) db c).2.1 ∧
      (mainModel folderId today now items db c).2.2 = none) := by
  constructor
  · intro h
    unfold mainModel
    rw [runItems_no_fail folderId today now items db c h]
  · intro h
    unfold mainModel
    rw [runItems_fail folderId today now items db c h]
    exact ⟨rfl, rfl, rfl⟩

theorem claim_C4_run_atomicity_witness :
    (mainModel "f" 0 0 [ItemInput.mk "d" "D" none "a b" false] (DB.mk [] [] []) [] =
      ((runAll "f" 0 0 [ItemInput.mk "d" "D" none "a b" false] (DB.mk [] [] []) []).1,
        (runAll "f" 0 0 [ItemInput.mk "d" "D" none "a b" false] (DB.mk [] [] []) []).2.1,
        some (runAll "f" 0 0 [ItemInput.mk "d" "D" none "a b" false]
          (DB.mk [] [] []) []).2.2)) ∧
    ((mainModel "f" 0 0 [ItemInput.mk "d" "D" none "x" true] (DB.mk [] [] []) []).1 =
        DB.mk [] [] [] ∧
      (mainModel "f" 0 0 [ItemInput.mk "d" "D" none "x" true] (DB.mk [] [] []) []).2.1 =
        (runAll "f" 0 0 ([ItemInput.mk "d" "D" none "x" true].takeWhile
          (fun it => !it.storeFails)) (DB.mk [] [] []) []).2.1 ∧
      (mainModel "f" 0 0 [ItemInput.mk "d" "D" none "x" true] (DB.mk [] [] []) []).2.2 =
        none) :=
  ⟨(claim_C4_run_atomicity "f" 0 0 [ItemInput.mk "d" "D" none "a b" false]
      (DB.mk [] [] []) []).1 (by decide),
   (claim_C4_run_atomicity "f" 0 0 [ItemInput.mk "d" "D" none "x" true]
      (DB.mk [] [] []) []).2 ⟨ItemInput.mk "d" "D" none "x" true, by decide⟩⟩

/-! ## C8: provider errors while listing a folder -/

theorem listDriveFilesAux_drained :
    ∀ (pages : List (PageFetch α)) (acc : List α),
      listDriveFilesAux pages acc = acc ++ (drainedPages pages).flatten := by
  intro pages
  induction pages with
  | nil =>
    intro acc
    simp [listDriveFilesAux, drainedPages]
  | cons pg rest ih =>
    intro acc
    cases pg with
    | err => simp [listDriveFilesAux, drainedPages]
    | ok its hasNext =>
      rw [listDriveFilesAux, drainedPages]
      by_cases hn : hasNext = true
      · rw [if_pos hn, if_pos hn, ih]
        simp
      · rw [if_neg hn, if_neg hn]
        simp

theorem runItems_append (folderId : String) (today now : Nat) :
    ∀ (xs ys : List ItemInput) (db : DB) (c : Cache),
      runItems folderId today now (xs ++ ys) db c =
        (match runItems folderId today now xs db c with
         | (cf, some (dbf, w)) =>
           match runItems folderId today now ys dbf cf with
           | (cg, some (dbg, wg)) => (cg, some (dbg, w + wg))
           | (cg, none) => (cg, none)
         | (cf, none) => (cf, none)) := by
  intro xs
  induction xs with
  | nil =>
    intro ys db c
    rw [List.nil_append]
    show runItems folderId today now ys db c =
      (match runItems folderId today now ys db c with
       | (cg, some (dbg, wg)) => (cg, some (dbg, 0 + wg))
       | (cg, none) => (cg, none))
    cases hr : runItems folderId today now ys db c with
    | mk cf ob =>
      cases ob with
      | none => rfl
      | some p =>
        obtain ⟨dbf, w⟩ := p
        simp
  | cons it rest ih =>
    intro ys db c
    rw [List.cons_append, runItems, runItems]
    by_cases hf : it.storeFails = true
    · rw [if_pos hf, if_pos hf]
    · rw [if_neg hf, if_neg hf]
      dsimp only
      rw [ih]
      cases h1 : runItems folderId today now rest
          (processDocItem db c folderId it today now).1
          (processDocItem db c folderId it today now).2.1 with
      | mk cf ob =>
        cases ob with
        | none => rfl
        | some p =>
          obtain ⟨dbf, w⟩ := p
          cases h2 : runItems folderId today now ys dbf cf with
          | mk cg og =>
            cases og with
            | none => simp [h2]
            | some q =>
              obtain ⟨dbg, wg⟩ := q
              simp [h2, Nat.add_assoc]

theorem syncFolders_eq_runItems (folderId : String) (today now : Nat) :
    ∀ (folders : List (List (PageFetch ItemInput))) (db : DB) (c : Cache),
      syncFolders folderId today now folders db c =
        runItems folderId today now ((folders.map listDriveFiles).flatten) db c := by
  intro folders
  induction folders with
  | nil =>
    intro db c
    rfl
  | cons f rest ih =>
    intro db c
    rw [syncFolders, List.map_cons, List.flatten_cons, runItems_append]
    cases h1 : runItems folderId today now (listDriveFiles f) db c with
    | mk cf ob =>
      cases ob with
      | none => rfl
      | some p =>
        obtain ⟨dbf, w⟩ := p
        simp only [ih]

/-- C8 as stated is false on the code: a provider error on the second page
leaves the first page's items in the child list, which is then non-empty. -/
theorem claim_C8_counterexample :
    hitsListingError
        [PageFetch.ok [ItemInput.mk "d1" "Doc" none "" false] true,
          PageFetch.err] = true ∧
    listDriveFiles
        [PageFetch.ok [ItemInput.mk "d1" "Doc" none "" false] true,
          PageFetch.err] ≠ ([] : List ItemInput) := by
  refine ⟨by decide, by decide⟩

/-- C8 amended: a provider error while listing a folder's children leaves
exactly the items of the pages drained before the error (so an error on the
first page yields an empty child list); the listing call returns normally,
and the traversal of sibling folders is the same as processing the drained
lists in order, so later siblings are still processed. -/
theorem claim_C8_listing_failure (folderId : String) (today now : Nat)
    (pages rest : List (PageFetch ItemInput))
    (folders : List (List (PageFetch ItemInput))) (db : DB) (c : Cache) :
    listDriveFiles pages = (drainedPages pages).flatten ∧
    listDriveFiles (PageFetch.err :: rest) = ([] : List ItemInput) ∧
    syncFolders folderId today now folders db c =
      runItems folderId today now ((folders.map listDriveFiles).flatten) db c := by
  refine ⟨?_, rfl, syncFolders_eq_runItems folderId today now folders db c⟩
  unfold listDriveFiles
  rw [listDriveFilesAux_drained]
  rfl

end Habit
